import Mathlib

/-!
Shallow embedding of the `indexlist` crate (`src/lib.rs`): a doubly linked
list stored in a single growable arena of slots addressed by generational
handles.  Every definition below is translated directly from the Rust
source; Rust `usize` values are modelled as `Nat` (no arithmetic in the
code can overflow on the states reachable by the public API, and the
`count -= 1` / `generation += 1` sites are only executed on states where
the subtraction cannot underflow), `Vec<Entry<T>>` as `List (Entry T)`,
and a computation that can hit a `panic!("Corrupted list")` branch returns
a `PRes`.
-/

namespace IndexListVerify

/-- Result of a Rust computation that can abort via a `panic!` branch:
either the abort, or a normal value. -/
inductive PRes (α : Type) : Type
  | panic : PRes α
  | ok (a : α) : PRes α
deriving DecidableEq, Repr

/-- `struct OccupiedEntry<T>` from the source: the element, the generation
stamp it was inserted at, and the slot positions of its sequence-order
neighbours. -/
structure OccupiedEntry (T : Type) : Type where
  item : T
  generation : Nat
  next : Option Nat
  prev : Option Nat
deriving DecidableEq, Repr

/-- `enum Entry<T>` from the source: one slot of the backing array. -/
inductive Entry (T : Type) : Type
  | Free (next_free : Option Nat) : Entry T
  | Occupied (oc : OccupiedEntry T) : Entry T
deriving DecidableEq, Repr

/-- `struct IndexList<T>` from the source. -/
structure IndexList (T : Type) : Type where
  contents : List (Entry T)
  generation : Nat
  next_free : Option Nat
  head : Option Nat
  tail : Option Nat
  count : Nat
deriving DecidableEq, Repr

/-- `struct Index<T>` from the source: a generational handle (the
`PhantomData` marker is dropped; it has no runtime content). -/
structure Index : Type where
  index : Nat
  generation : Nat
deriving DecidableEq, Repr

/-- `Vec::get` on the backing array: `self.contents.get(i)`. -/
def getEntry (c : List (Entry T)) (i : Nat) : Option (Entry T) :=
  c.get? i

/-- `IndexList::new` / `IndexList::default`: the empty list. -/
def listNew (T : Type) : IndexList T :=
  { contents := [], generation := 0, next_free := none,
    head := none, tail := none, count := 0 }

/-- `IndexList::len`. -/
def len (l : IndexList T) : Nat :=
  l.count

/-- `IndexList::head_index`: the handle of the first element, if any. -/
def head_index (l : IndexList T) : Option Index :=
  match l.head with
  | none => none
  | some h =>
    match getEntry l.contents h with
    | some (.Occupied oc) => some ⟨h, oc.generation⟩
    | _ => none

/-- `IndexList::tail_index`: the handle of the last element, if any. -/
def tail_index (l : IndexList T) : Option Index :=
  match l.tail with
  | none => none
  | some t =>
    match getEntry l.contents t with
    | some (.Occupied oc) => some ⟨t, oc.generation⟩
    | _ => none

/-- `IndexList::get`.  Out-of-range handles give `None`; a generation
mismatch on an `Occupied` slot gives `None`; a `Free` slot hits the
`panic!("Corrupted list")` branch of the source. -/
def get (l : IndexList T) (idx : Index) : PRes (Option T) :=
  match getEntry l.contents idx.index with
  | none => .ok none
  | some (.Occupied oc) =>
    if oc.generation ≠ idx.generation then .ok none else .ok (some oc.item)
  | some (.Free _) => .panic

/-- `IndexList::get_mut`: same control flow as `get` (the returned value
models the presence and identity of the yielded `&mut T`). -/
def get_mut (l : IndexList T) (idx : Index) : PRes (Option T) :=
  match getEntry l.contents idx.index with
  | none => .ok none
  | some (.Occupied oc) =>
    if oc.generation ≠ idx.generation then .ok none else .ok (some oc.item)
  | some (.Free _) => .panic

/-- `IndexList::next_index`.  Note the source builds the result as
`Index::new(oc.next?, oc.generation)` where `oc` is the entry of the
*argument* handle, so the generation stamped on the returned handle is the
anchor's generation, not the neighbour's. -/
def next_index (l : IndexList T) (idx : Index) : Option Index :=
  match getEntry l.contents idx.index with
  | none => none
  | some (.Occupied oc) =>
    if idx.generation ≠ oc.generation then none
    else
      match oc.next with
      | none => none
      | some n => some ⟨n, oc.generation⟩
  | some (.Free _) => none

/-- `IndexList::prev_index`, mirror image of `next_index` (same anchor
generation on the returned handle). -/
def prev_index (l : IndexList T) (idx : Index) : Option Index :=
  match getEntry l.contents idx.index with
  | none => none
  | some (.Occupied oc) =>
    if idx.generation ≠ oc.generation then none
    else
      match oc.prev with
      | none => none
      | some p => some ⟨p, oc.generation⟩
  | some (.Free _) => none

/-- The `if let Some(tail) = self.tail { .. oc.next = Some(k) .. }` block
shared by both arms of `push_back`: rewrite the old tail slot's `next`
link to `k`, silently skipping a missing or `Free` slot exactly as the
source's `_ => {}` arm does. -/
def fixNextLink (c : List (Entry T)) (tl : Option Nat) (k : Nat) : List (Entry T) :=
  match tl with
  | some t =>
    match getEntry c t with
    | some (.Occupied oc) => c.set t (.Occupied { oc with next := some k })
    | _ => c
  | none => c

/-- The `if let Some(head) = self.head { .. oc.prev = Some(k) .. }` block
shared by both arms of `push_front`. -/
def fixPrevLink (c : List (Entry T)) (hd : Option Nat) (k : Nat) : List (Entry T) :=
  match hd with
  | some h =>
    match getEntry c h with
    | some (.Occupied oc) => c.set h (.Occupied { oc with prev := some k })
    | _ => c
  | none => c

/-- `IndexList::push_back`.  The `Some(index)` arm pops the free-chain
head (panicking if that slot is not `Free`); the `None` arm appends a new
slot.  In both arms the old tail's `next` link is rewritten afterwards,
reading the array that already holds the new entry, exactly as the
source's sequence of `&mut self` statements does. -/
def push_back (l : IndexList T) (item : T) : PRes (Index × IndexList T) :=
  match l.next_free with
  | some index =>
    match getEntry l.contents index with
    | some (.Free nf) =>
      let c1 := l.contents.set index (.Occupied ⟨item, l.generation, none, l.tail⟩)
      .ok (⟨index, l.generation⟩,
        { contents := fixNextLink c1 l.tail index, generation := l.generation,
          next_free := nf,
          head := if l.head = none then some index else l.head,
          tail := some index, count := l.count + 1 })
    | _ => .panic
  | none =>
    let c1 := l.contents ++ [.Occupied ⟨item, l.generation, none, l.tail⟩]
    let last := l.contents.length
    .ok (⟨last, l.generation⟩,
      { contents := fixNextLink c1 l.tail last, generation := l.generation,
        next_free := none,
        head := if l.head = none then some 0 else l.head,
        tail := some last, count := l.count + 1 })

/-- `IndexList::push_front`, mirror image of `push_back`. -/
def push_front (l : IndexList T) (item : T) : PRes (Index × IndexList T) :=
  match l.next_free with
  | some index =>
    match getEntry l.contents index with
    | some (.Free nf) =>
      let c1 := l.contents.set index (.Occupied ⟨item, l.generation, l.head, none⟩)
      .ok (⟨index, l.generation⟩,
        { contents := fixPrevLink c1 l.head index, generation := l.generation,
          next_free := nf,
          head := some index,
          tail := if l.tail = none then some index else l.tail,
          count := l.count + 1 })
    | _ => .panic
  | none =>
    let c1 := l.contents ++ [.Occupied ⟨item, l.generation, l.head, none⟩]
    let last := l.contents.length
    .ok (⟨last, l.generation⟩,
      { contents := fixPrevLink c1 l.head last, generation := l.generation,
        next_free := none,
        head := some last,
        tail := if l.tail = none then some 0 else l.tail,
        count := l.count + 1 })

/-- The `match oc_prev { Some(prev) => .. oc_prev.next = oc_next .. }`
block of `remove`: rewrite the predecessor's `next` link (a `Free` slot
in range is the source's `panic!` branch; an out-of-range position is
silently skipped by `contents.get_mut`'s `None => {}` arm). -/
def unlinkPrev (c : List (Entry T)) (ocp ocn : Option Nat) : PRes (List (Entry T)) :=
  match ocp with
  | some p =>
    match getEntry c p with
    | some (.Occupied pe) => .ok (c.set p (.Occupied { pe with next := ocn }))
    | some (.Free _) => .panic
    | none => .ok c
  | none => .ok c

/-- The `match oc_next { Some(next) => .. oc_next.prev = oc_prev .. }`
block of `remove`. -/
def unlinkNext (c : List (Entry T)) (ocn ocp : Option Nat) : PRes (List (Entry T)) :=
  match ocn with
  | some n =>
    match getEntry c n with
    | some (.Occupied ne) => .ok (c.set n (.Occupied { ne with prev := ocp }))
    | some (.Free _) => .panic
    | none => .ok c
  | none => .ok c

/-- Phase two of `remove`, starting from the array `c2` in which both
neighbours have been unlinked: swap the slot for a `Free` entry whose
link is the old free-chain head, bump the generation, decrement the
count, push the slot onto the free chain, and fix `head`/`tail` if the
removed slot was one of them.  The `none` arm models the source's early
`?` return, after which only the neighbour rewrites have happened. -/
def removeFinish (l : IndexList T) (idx : Index) (c2 : List (Entry T)) :
    PRes (Option T × IndexList T) :=
  match getEntry c2 idx.index with
  | none => .ok (none, { l with contents := c2 })
  | some cur =>
    let c3 := c2.set idx.index (.Free l.next_free)
    match cur with
    | .Occupied oc2 =>
      .ok (some oc2.item,
        { contents := c3, generation := l.generation + 1,
          next_free := some idx.index,
          head :=
            match l.head with
            | some hi => if hi = idx.index then oc2.next else l.head
            | none => l.head,
          tail :=
            match l.tail with
            | some ti => if ti = idx.index then oc2.prev else l.tail
            | none => l.tail,
          count := l.count - 1 })
    | .Free _ =>
      .ok (none,
        { contents := c3, generation := l.generation + 1,
          next_free := some idx.index,
          head := l.head, tail := l.tail, count := l.count - 1 })

/-- `IndexList::remove`.  Phase one validates the handle and rewrites the
two neighbours' links; phase two (`removeFinish`) frees the slot and
repairs the list header. -/
def remove (l : IndexList T) (idx : Index) : PRes (Option T × IndexList T) :=
  match getEntry l.contents idx.index with
  | none => .ok (none, l)
  | some (.Free _) => .ok (none, l)
  | some (.Occupied oc) =>
    if idx.generation ≠ oc.generation then .ok (none, l)
    else
      match unlinkPrev l.contents oc.prev oc.next with
      | .panic => .panic
      | .ok c1 =>
        match unlinkNext c1 oc.next oc.prev with
        | .panic => .panic
        | .ok c2 => removeFinish l idx c2

/-- `IndexList::pop_front`: resolve the head handle (panicking if the head
slot is `Free`) and `remove` it. -/
def pop_front (l : IndexList T) : PRes (Option T × IndexList T) :=
  match l.head with
  | none => .ok (none, l)
  | some h =>
    match getEntry l.contents h with
    | none => .ok (none, l)
    | some (.Occupied oc) => remove l ⟨h, oc.generation⟩
    | some (.Free _) => .panic

/-- The part of `IndexList::insert_before` that runs after the new slot
has been allocated (array `c1`, slot `ri`, remaining free link `nf`):
rewrite the anchor's `prev` (updating `head` when the anchor was the
head), then rewrite the former predecessor's `next`.  When the anchor has
no predecessor the source's `oc_prev?` returns `None` from the function
even though the insertion has already been performed; that path is
reproduced here. -/
def insert_before_finish (l : IndexList T) (idx : Index) (ocp : Option Nat)
    (ri : Nat) (c1 : List (Entry T)) (nf : Option Nat) :
    PRes (Option Index × IndexList T) :=
  match getEntry c1 idx.index with
  | some (.Occupied oc1) =>
    let c2 := c1.set idx.index (.Occupied { oc1 with prev := some ri })
    let mid : IndexList T :=
      { contents := c2, generation := l.generation, next_free := nf,
        head := if l.head = some idx.index then some ri else l.head,
        tail := l.tail, count := l.count + 1 }
    match ocp with
    | none => .ok (none, mid)
    | some p =>
      match getEntry c2 p with
      | none => .ok (none, mid)
      | some (.Occupied ocP) =>
        .ok (some ⟨ri, l.generation⟩,
          { mid with contents := c2.set p (.Occupied { ocP with next := some ri }) })
      | some (.Free _) => .ok (none, mid)
  | _ =>
    .ok (none,
      { contents := c1, generation := l.generation, next_free := nf,
        head := l.head, tail := l.tail, count := l.count + 1 })

/-- `IndexList::insert_before`: validate the anchor, allocate the new
slot (free-chain pop or append, panicking when the free-chain head is not
`Free`), then splice via `insert_before_finish`. -/
def insert_before (l : IndexList T) (idx : Index) (item : T) :
    PRes (Option Index × IndexList T) :=
  match getEntry l.contents idx.index with
  | none => .ok (none, l)
  | some (.Free _) => .ok (none, l)
  | some (.Occupied oc0) =>
    if idx.generation ≠ oc0.generation then .ok (none, l)
    else
      let ocp := oc0.prev
      let alloc : PRes (Nat × List (Entry T) × Option Nat) :=
        match l.next_free with
        | some ifree =>
          match getEntry l.contents ifree with
          | some (.Free nf) =>
            .ok (ifree, l.contents.set ifree
              (.Occupied ⟨item, l.generation, some idx.index, ocp⟩), nf)
          | _ => .panic
        | none =>
          .ok (l.contents.length,
            l.contents ++ [.Occupied ⟨item, l.generation, some idx.index, ocp⟩], none)
      match alloc with
      | .panic => .panic
      | .ok (ri, c1, nf) => insert_before_finish l idx ocp ri c1 nf

/-- The part of `IndexList::insert_after` that runs after allocation:
mirror image of `insert_before_finish` (with the symmetric early `None`
return through `oc_next?` when the anchor has no successor). -/
def insert_after_finish (l : IndexList T) (idx : Index) (ocn : Option Nat)
    (ri : Nat) (c1 : List (Entry T)) (nf : Option Nat) :
    PRes (Option Index × IndexList T) :=
  match getEntry c1 idx.index with
  | some (.Occupied oc1) =>
    let c2 := c1.set idx.index (.Occupied { oc1 with next := some ri })
    let mid : IndexList T :=
      { contents := c2, generation := l.generation, next_free := nf,
        head := l.head,
        tail := if l.tail = some idx.index then some ri else l.tail,
        count := l.count + 1 }
    match ocn with
    | none => .ok (none, mid)
    | some n =>
      match getEntry c2 n with
      | none => .ok (none, mid)
      | some (.Occupied ocN) =>
        .ok (some ⟨ri, l.generation⟩,
          { mid with contents := c2.set n (.Occupied { ocN with prev := some ri }) })
      | some (.Free _) => .ok (none, mid)
  | _ =>
    .ok (none,
      { contents := c1, generation := l.generation, next_free := nf,
        head := l.head, tail := l.tail, count := l.count + 1 })

/-- `IndexList::insert_after`, mirror image of `insert_before`. -/
def insert_after (l : IndexList T) (idx : Index) (item : T) :
    PRes (Option Index × IndexList T) :=
  match getEntry l.contents idx.index with
  | none => .ok (none, l)
  | some (.Free _) => .ok (none, l)
  | some (.Occupied oc0) =>
    if idx.generation ≠ oc0.generation then .ok (none, l)
    else
      let ocn := oc0.next
      let alloc : PRes (Nat × List (Entry T) × Option Nat) :=
        match l.next_free with
        | some ifree =>
          match getEntry l.contents ifree with
          | some (.Free nf) =>
            .ok (ifree, l.contents.set ifree
              (.Occupied ⟨item, l.generation, ocn, some idx.index⟩), nf)
          | _ => .panic
        | none =>
          .ok (l.contents.length,
            l.contents ++ [.Occupied ⟨item, l.generation, ocn, some idx.index⟩], none)
      match alloc with
      | .panic => .panic
      | .ok (ri, c1, nf) => insert_after_finish l idx ocn ri c1 nf

/-- Loop body of `IndexList::index_of` (a `while let` over the `next`
links; the `Vec` index expression panics out of range, a `Free` slot is
the `panic!` branch).  The Rust loop is unbounded; `fuel` only models its
non-termination on corrupted states, and on every run examined here the
loop exhausts the chain strictly within the supplied fuel. -/
def index_of_loop [DecidableEq T] (l : IndexList T) (item : T) :
    Nat → Option Nat → PRes (Option Index)
  | 0, _ => .panic
  | _ + 1, none => .ok none
  | fuel + 1, some i =>
    match getEntry l.contents i with
    | some (.Occupied oc) =>
      if oc.item = item then .ok (some ⟨i, oc.generation⟩)
      else index_of_loop l item fuel oc.next
    | _ => .panic

/-- `IndexList::index_of`: linear forward scan from `head`. -/
def index_of [DecidableEq T] (l : IndexList T) (item : T) : PRes (Option Index) :=
  index_of_loop l item (l.contents.length + 1) l.head

/-- `IndexList::iter`: the iterator's starting state, a handle for the
head slot stamped with that slot's stored generation (`panic!` if the
head slot is `Free`). -/
def iterInit (l : IndexList T) : PRes (Option Index) :=
  match l.head with
  | none => .ok none
  | some h =>
    match getEntry l.contents h with
    | some (.Occupied oc) => .ok (some ⟨h, oc.generation⟩)
    | _ => .panic

/-- One call of `Iter::next`: from state `s`, the new state is
`next_index` of the current handle and the yielded value is `get` of the
current handle (`None` ends the iteration). -/
def iterStep (l : IndexList T) (s : Option Index) : Option Index × PRes (Option T) :=
  match s with
  | none => (none, .ok none)
  | some idx => (next_index l idx, get l idx)

/-- Repeatedly call `Iter::next` and collect the yielded elements until
the iterator returns `None`.  Fuel models the unbounded Rust loop; every
run examined here terminates strictly within the supplied fuel. -/
def collect_loop (l : IndexList T) : Nat → Option Index → PRes (List T)
  | 0, _ => .panic
  | _ + 1, none => .ok []
  | fuel + 1, some idx =>
    match get l idx with
    | .panic => .panic
    | .ok none => .ok []
    | .ok (some x) =>
      match collect_loop l fuel (next_index l idx) with
      | .panic => .panic
      | .ok rest => .ok (x :: rest)

/-- The full element sequence produced by a fresh read iterator. -/
def iterToList (l : IndexList T) : PRes (List T) :=
  match iterInit l with
  | .panic => .panic
  | .ok s => collect_loop l (l.contents.length + 1) s

/-- Loop of `Iterator::any` as used by `IndexList::contains`: keep calling
`Iter::next` until a yielded element equals `v` (true) or the iterator
ends (false). -/
def any_loop [DecidableEq T] (l : IndexList T) (v : T) :
    Nat → Option Index → PRes Bool
  | 0, _ => .panic
  | _ + 1, none => .ok false
  | fuel + 1, some idx =>
    match get l idx with
    | .panic => .panic
    | .ok none => .ok false
    | .ok (some x) =>
      if x = v then .ok true else any_loop l v fuel (next_index l idx)

/-- `IndexList::contains`: `self.iter().any(|e| e == value)`. -/
def contains [DecidableEq T] (l : IndexList T) (v : T) : PRes Bool :=
  match iterInit l with
  | .panic => .panic
  | .ok s => any_loop l v (l.contents.length + 1) s

/-! Concrete states used by the counterexample theorems.  Each is spelled
out as a record literal; the theorems check that the public operations
really produce these states starting from the empty list. -/

/-- State after `push_back 5` on the empty list. -/
def exA1 : IndexList Nat :=
  { contents := [.Occupied ⟨5, 0, none, none⟩], generation := 0,
    next_free := none, head := some 0, tail := some 0, count := 1 }

/-- State after `push_back 5; push_back 10`. -/
def exA2 : IndexList Nat :=
  { contents := [.Occupied ⟨5, 0, some 1, none⟩, .Occupied ⟨10, 0, none, some 0⟩],
    generation := 0, next_free := none, head := some 0, tail := some 1, count := 2 }

/-- State after `push_back 5; push_back 10; remove ⟨1,0⟩`. -/
def exA3 : IndexList Nat :=
  { contents := [.Occupied ⟨5, 0, none, none⟩, .Free none],
    generation := 1, next_free := some 1, head := some 0, tail := some 0, count := 1 }

/-- State after `push_back 5; push_back 10; remove ⟨1,0⟩; push_back 20`:
two live elements with different generation stamps (0 and 1). -/
def exA4 : IndexList Nat :=
  { contents := [.Occupied ⟨5, 0, some 1, none⟩, .Occupied ⟨20, 1, none, some 0⟩],
    generation := 1, next_free := none, head := some 0, tail := some 1, count := 2 }

/-- State after `push_back 5; remove ⟨0,0⟩`: the handle `⟨0,0⟩` is stale
and its slot is `Free`. -/
def exC1 : IndexList Nat :=
  { contents := [.Free none], generation := 1, next_free := some 0,
    head := none, tail := none, count := 0 }

/-- State after `push_front 2` on the empty list. -/
def exB1 : IndexList Nat :=
  { contents := [.Occupied ⟨2, 0, none, none⟩], generation := 0,
    next_free := none, head := some 0, tail := some 0, count := 1 }

/-- State after `insert_before ⟨0,0⟩ 0` on `exB1`: the insertion has been
performed (sequence `[0, 2]`) although the call returned `none`. -/
def exB2 : IndexList Nat :=
  { contents := [.Occupied ⟨2, 0, none, some 1⟩, .Occupied ⟨0, 0, some 0, none⟩],
    generation := 0, next_free := none, head := some 1, tail := some 0, count := 2 }

/-- State after `insert_after ⟨0,0⟩ 7` on `exB1`: the insertion has been
performed (sequence `[2, 7]`) although the call returned `none`. -/
def exB2a : IndexList Nat :=
  { contents := [.Occupied ⟨2, 0, some 1, none⟩, .Occupied ⟨7, 0, none, some 0⟩],
    generation := 0, next_free := none, head := some 0, tail := some 1, count := 2 }

/-! Invariants and reachability. -/

/-- Whether a slot is `Occupied`. -/
def isOccB : Entry T → Bool
  | .Occupied _ => true
  | .Free _ => false

/-- The number of `Occupied` slots in the backing array. -/
def occCount (l : IndexList T) : Nat :=
  (l.contents.filter isOccB).length

/-- Invariant 6 of the specification: a handle is valid iff its slot is
`Occupied` and the stored generation equals the handle's generation. -/
def validHandle (l : IndexList T) (idx : Index) : Prop :=
  match getEntry l.contents idx.index with
  | some (.Occupied oc) => oc.generation = idx.generation
  | _ => False

/-- The slot pointer entering a chain segment from the left: the first
slot of `xs`, or `n` when `xs` is empty. -/
def nextPtr (xs : List Nat) (n : Option Nat) : Option Nat :=
  match xs with
  | [] => n
  | j :: _ => some j

/-- The slot pointer leaving a chain segment to the right: the last slot
of `xs`, or `p` when `xs` is empty. -/
def lastPtr (xs : List Nat) (p : Option Nat) : Option Nat :=
  match xs.getLast? with
  | none => p
  | some j => some j

/-- `dseg c p xs n`: the slots `xs` form a doubly linked segment inside
`c`; the first slot's `prev` is `p`, consecutive slots point at each
other, and the last slot's `next` is `n`. -/
def dseg (c : List (Entry T)) : Option Nat → List Nat → Option Nat → Prop
  | _, [], _ => True
  | p, i :: rest, n =>
    (∃ oc, getEntry c i = some (.Occupied oc) ∧ oc.prev = p ∧ oc.next = nextPtr rest n) ∧
    dseg c (some i) rest n

/-- `fchain c fs`: the slots `fs` form the free chain inside `c`: each is
`Free` and stores the position of the next one (`none` at the end). -/
def fchain (c : List (Entry T)) : List Nat → Prop
  | [] => True
  | i :: rest => getEntry c i = some (.Free (nextPtr rest none)) ∧ fchain c rest

/-- Upper bound on stored generation stamps: every `Occupied` slot's
generation is at most the list's generation counter. -/
def GenLe (l : IndexList T) : Prop :=
  ∀ i oc, getEntry l.contents i = some (.Occupied oc) → oc.generation ≤ l.generation

/-- Full well-formedness of a list state, witnessed by the sequence-order
slot list `seq` and the free-chain slot list `fs` (invariants 1–6 of the
specification). -/
structure WfW (l : IndexList T) (seq fs : List Nat) : Prop where
  head_eq : l.head = seq.head?
  tail_eq : l.tail = seq.getLast?
  count_eq : l.count = seq.length
  nf_eq : l.next_free = nextPtr fs none
  seq_nd : seq.Nodup
  fs_nd : fs.Nodup
  chain : dseg l.contents none seq none
  fsc : fchain l.contents fs
  cover : ∀ i, i < l.contents.length → i ∈ seq ∨ i ∈ fs
  gen_le : GenLe l

/-- A list state is well formed when some `seq`/`fs` witness exists. -/
def Wf (l : IndexList T) : Prop :=
  ∃ seq fs, WfW l seq fs

/-- States reachable from the empty list by the public mutating
operations (`push_back`, `push_front`, `pop_front`, `remove`,
`insert_before`, `insert_after`), applied with arbitrary arguments and
arbitrary — possibly stale — handles. -/
inductive Reachable {T : Type} : IndexList T → Prop
  | base : Reachable (listNew T)
  | push_back_step {l : IndexList T} {x : T} {h : Index} {l' : IndexList T} :
      Reachable l → push_back l x = .ok (h, l') → Reachable l'
  | push_front_step {l : IndexList T} {x : T} {h : Index} {l' : IndexList T} :
      Reachable l → push_front l x = .ok (h, l') → Reachable l'
  | pop_front_step {l : IndexList T} {r : Option T} {l' : IndexList T} :
      Reachable l → pop_front l = .ok (r, l') → Reachable l'
  | remove_step {l : IndexList T} {idx : Index} {r : Option T} {l' : IndexList T} :
      Reachable l → remove l idx = .ok (r, l') → Reachable l'
  | insert_before_step {l : IndexList T} {idx : Index} {x : T} {r : Option Index}
      {l' : IndexList T} :
      Reachable l → insert_before l idx x = .ok (r, l') → Reachable l'
  | insert_after_step {l : IndexList T} {idx : Index} {x : T} {r : Option Index}
      {l' : IndexList T} :
      Reachable l → insert_after l idx x = .ok (r, l') → Reachable l'

/-!  Theorems.  First a small interface of facts about `getEntry` over
`List.set` and append, then the claim theorems. -/

theorem getEntry_lt {c : List (Entry T)} {i : Nat} {e : Entry T}
    (h : getEntry c i = some e) : i < c.length := by
  by_contra hc
  rw [getEntry, List.get?_eq_getElem?, List.getElem?_len_le (Nat.le_of_not_lt hc)] at h
  exact Option.noConfusion h

theorem getEntry_set_self {c : List (Entry T)} {i : Nat} (h : i < c.length) (e : Entry T) :
    getEntry (c.set i e) i = some e := by
  rw [getEntry, List.get?_eq_getElem?]
  exact List.getElem?_set_eq_of_lt e h

theorem getEntry_set_ne {c : List (Entry T)} {i j : Nat} (h : i ≠ j) (e : Entry T) :
    getEntry (c.set i e) j = getEntry c j := by
  rw [getEntry, getEntry, List.get?_eq_getElem?, List.get?_eq_getElem?]
  exact List.getElem?_set_ne h

theorem getEntry_append_lt {c : List (Entry T)} {i : Nat} (h : i < c.length)
    (d : List (Entry T)) : getEntry (c ++ d) i = getEntry c i := by
  rw [getEntry, getEntry, List.get?_eq_getElem?, List.get?_eq_getElem?]
  exact List.getElem?_append_left h

theorem getEntry_append_len (c : List (Entry T)) (e : Entry T) :
    getEntry (c ++ [e]) c.length = some e := by
  rw [getEntry, List.get?_eq_getElem?]
  exact List.getElem?_concat_length c e

theorem getEntry_len_le {c : List (Entry T)} {i : Nat} (h : c.length ≤ i) :
    getEntry c i = none := by
  rw [getEntry, List.get?_eq_getElem?]
  exact List.getElem?_len_le h

theorem length_fixNextLink (c : List (Entry T)) (tl : Option Nat) (k : Nat) :
    (fixNextLink c tl k).length = c.length := by
  unfold fixNextLink
  cases tl with
  | none => rfl
  | some t =>
    cases hge : getEntry c t with
    | none => simp only [hge]
    | some e =>
      cases e with
      | Free nf => simp only [hge]
      | Occupied oc => simp only [hge]; exact List.length_set c t _

theorem length_fixPrevLink (c : List (Entry T)) (hd : Option Nat) (k : Nat) :
    (fixPrevLink c hd k).length = c.length := by
  unfold fixPrevLink
  cases hd with
  | none => rfl
  | some h =>
    cases hge : getEntry c h with
    | none => simp only [hge]
    | some e =>
      cases e with
      | Free nf => simp only [hge]
      | Occupied oc => simp only [hge]; exact List.length_set c h _

/-- `fixNextLink` can change only the `next` field of an `Occupied` slot:
item, generation and `prev` survive. -/
theorem getEntry_fixNextLink_occ {c : List (Entry T)} {j : Nat} {oc : OccupiedEntry T}
    (hj : getEntry c j = some (.Occupied oc)) (tl : Option Nat) (k : Nat) :
    ∃ nx, getEntry (fixNextLink c tl k) j =
      some (.Occupied ⟨oc.item, oc.generation, nx, oc.prev⟩) := by
  unfold fixNextLink
  cases tl with
  | none => exact ⟨oc.next, hj⟩
  | some t =>
    cases hge : getEntry c t with
    | none => simp only [hge]; exact ⟨oc.next, hj⟩
    | some e =>
      cases e with
      | Free nf => simp only [hge]; exact ⟨oc.next, hj⟩
      | Occupied ot =>
        simp only [hge]
        by_cases htj : t = j
        · subst htj
          rw [hj] at hge
          injection hge with hge
          injection hge with hge
          subst hge
          exact ⟨some k, getEntry_set_self (getEntry_lt hj) _⟩
        · rw [getEntry_set_ne htj]
          exact ⟨oc.next, hj⟩

/-- `fixPrevLink` can change only the `prev` field of an `Occupied` slot. -/
theorem getEntry_fixPrevLink_occ {c : List (Entry T)} {j : Nat} {oc : OccupiedEntry T}
    (hj : getEntry c j = some (.Occupied oc)) (hd : Option Nat) (k : Nat) :
    ∃ pv, getEntry (fixPrevLink c hd k) j =
      some (.Occupied ⟨oc.item, oc.generation, oc.next, pv⟩) := by
  unfold fixPrevLink
  cases hd with
  | none => exact ⟨oc.prev, hj⟩
  | some h =>
    cases hge : getEntry c h with
    | none => simp only [hge]; exact ⟨oc.prev, hj⟩
    | some e =>
      cases e with
      | Free nf => simp only [hge]; exact ⟨oc.prev, hj⟩
      | Occupied ot =>
        simp only [hge]
        by_cases htj : h = j
        · subst htj
          rw [hj] at hge
          injection hge with hge
          injection hge with hge
          subst hge
          exact ⟨some k, getEntry_set_self (getEntry_lt hj) _⟩
        · rw [getEntry_set_ne htj]
          exact ⟨oc.prev, hj⟩

/-- Closed form of `push_back` when the free chain is non-empty and its
head slot really is `Free`. -/
theorem push_back_free_eq {l : IndexList T} {i : Nat} {nf : Option Nat}
    (hnf : l.next_free = some i) (hfree : getEntry l.contents i = some (.Free nf)) (v : T) :
    push_back l v = .ok (⟨i, l.generation⟩,
      { contents := fixNextLink
          (l.contents.set i (.Occupied ⟨v, l.generation, none, l.tail⟩)) l.tail i,
        generation := l.generation, next_free := nf,
        head := if l.head = none then some i else l.head,
        tail := some i, count := l.count + 1 }) := by
  unfold push_back
  simp only [hnf, hfree]

/-- Closed form of `push_back` when the free chain is empty. -/
theorem push_back_append_eq {l : IndexList T} (hnf : l.next_free = none) (v : T) :
    push_back l v = .ok (⟨l.contents.length, l.generation⟩,
      { contents := fixNextLink
          (l.contents ++ [.Occupied ⟨v, l.generation, none, l.tail⟩]) l.tail l.contents.length,
        generation := l.generation, next_free := none,
        head := if l.head = none then some 0 else l.head,
        tail := some l.contents.length, count := l.count + 1 }) := by
  unfold push_back
  simp only [hnf]

/-- Closed form of `push_front` when the free chain is non-empty and its
head slot really is `Free`. -/
theorem push_front_free_eq {l : IndexList T} {i : Nat} {nf : Option Nat}
    (hnf : l.next_free = some i) (hfree : getEntry l.contents i = some (.Free nf)) (v : T) :
    push_front l v = .ok (⟨i, l.generation⟩,
      { contents := fixPrevLink
          (l.contents.set i (.Occupied ⟨v, l.generation, l.head, none⟩)) l.head i,
        generation := l.generation, next_free := nf,
        head := some i,
        tail := if l.tail = none then some i else l.tail,
        count := l.count + 1 }) := by
  unfold push_front
  simp only [hnf, hfree]

/-- Closed form of `push_front` when the free chain is empty. -/
theorem push_front_append_eq {l : IndexList T} (hnf : l.next_free = none) (v : T) :
    push_front l v = .ok (⟨l.contents.length, l.generation⟩,
      { contents := fixPrevLink
          (l.contents ++ [.Occupied ⟨v, l.generation, l.head, none⟩]) l.head l.contents.length,
        generation := l.generation, next_free := none,
        head := some l.contents.length,
        tail := if l.tail = none then some 0 else l.tail,
        count := l.count + 1 }) := by
  unfold push_front
  simp only [hnf]

theorem getEntry_set_rev {c : List (Entry T)} {i j : Nat} {e' e : Entry T}
    (h : getEntry (c.set i e') j = some e) : getEntry c j = some e ∨ (i = j ∧ e = e') := by
  by_cases hij : i = j
  · subst hij
    have hlt : i < c.length := by
      have hl := getEntry_lt h
      rwa [List.length_set] at hl
    rw [getEntry_set_self hlt] at h
    exact Or.inr ⟨rfl, (Option.some.inj h).symm⟩
  · rw [getEntry_set_ne hij] at h
    exact Or.inl h

theorem getEntry_append_single_rev {c : List (Entry T)} {e' e : Entry T} {j : Nat}
    (h : getEntry (c ++ [e']) j = some e) : getEntry c j = some e ∨ e = e' := by
  rcases Nat.lt_trichotomy j c.length with hlt | rfl | hgt
  · rw [getEntry_append_lt hlt] at h
    exact Or.inl h
  · rw [getEntry_append_len] at h
    exact Or.inr (Option.some.inj h).symm
  · have hle : (c ++ [e']).length ≤ j := by
      rw [List.length_append, List.length_singleton]
      omega
    rw [getEntry_len_le hle] at h
    exact Option.noConfusion h

theorem getEntry_fixNextLink_ne {c : List (Entry T)} {tl : Option Nat} {k j : Nat}
    (h : tl ≠ some j) : getEntry (fixNextLink c tl k) j = getEntry c j := by
  unfold fixNextLink
  cases tl with
  | none => rfl
  | some t =>
    cases hge : getEntry c t with
    | none => simp only [hge]
    | some e =>
      cases e with
      | Free nf => simp only [hge]
      | Occupied oc =>
        simp only [hge]
        exact getEntry_set_ne (fun he => h (by rw [he])) _

theorem getEntry_fixNextLink_tl {c : List (Entry T)} {t k : Nat} {oc : OccupiedEntry T}
    (h : getEntry c t = some (.Occupied oc)) :
    getEntry (fixNextLink c (some t) k) t = some (.Occupied { oc with next := some k }) := by
  unfold fixNextLink
  simp only [h]
  exact getEntry_set_self (getEntry_lt h) _

theorem getEntry_fixPrevLink_ne {c : List (Entry T)} {hd : Option Nat} {k j : Nat}
    (h : hd ≠ some j) : getEntry (fixPrevLink c hd k) j = getEntry c j := by
  unfold fixPrevLink
  cases hd with
  | none => rfl
  | some hh =>
    cases hge : getEntry c hh with
    | none => simp only [hge]
    | some e =>
      cases e with
      | Free nf => simp only [hge]
      | Occupied oc =>
        simp only [hge]
        exact getEntry_set_ne (fun he => h (by rw [he])) _

theorem getEntry_fixPrevLink_hd {c : List (Entry T)} {hh k : Nat} {oc : OccupiedEntry T}
    (h : getEntry c hh = some (.Occupied oc)) :
    getEntry (fixPrevLink c (some hh) k) hh = some (.Occupied { oc with prev := some k }) := by
  unfold fixPrevLink
  simp only [h]
  exact getEntry_set_self (getEntry_lt h) _

theorem genBound_set_occ {c : List (Entry T)} {g : Nat}
    (hg : ∀ j oc, getEntry c j = some (.Occupied oc) → oc.generation ≤ g)
    {i : Nat} {ocn : OccupiedEntry T} (hocn : ocn.generation ≤ g) :
    ∀ j oc, getEntry (c.set i (.Occupied ocn)) j = some (.Occupied oc) →
      oc.generation ≤ g := by
  intro j oc h
  rcases getEntry_set_rev h with h' | ⟨_, he⟩
  · exact hg j oc h'
  · injection he with he
    subst he
    exact hocn

theorem genBound_set_free {c : List (Entry T)} {g : Nat}
    (hg : ∀ j oc, getEntry c j = some (.Occupied oc) → oc.generation ≤ g)
    {i : Nat} {nf : Option Nat} :
    ∀ j oc, getEntry (c.set i (.Free nf)) j = some (.Occupied oc) →
      oc.generation ≤ g := by
  intro j oc h
  rcases getEntry_set_rev h with h' | ⟨_, he⟩
  · exact hg j oc h'
  · exact Entry.noConfusion he

theorem genBound_append_occ {c : List (Entry T)} {g : Nat}
    (hg : ∀ j oc, getEntry c j = some (.Occupied oc) → oc.generation ≤ g)
    {ocn : OccupiedEntry T} (hocn : ocn.generation ≤ g) :
    ∀ j oc, getEntry (c ++ [.Occupied ocn]) j = some (.Occupied oc) →
      oc.generation ≤ g := by
  intro j oc h
  rcases getEntry_append_single_rev h with h' | he
  · exact hg j oc h'
  · injection he with he
    subst he
    exact hocn

theorem genBound_fixNextLink {c : List (Entry T)} {g : Nat}
    (hg : ∀ j oc, getEntry c j = some (.Occupied oc) → oc.generation ≤ g)
    (tl : Option Nat) (k : Nat) :
    ∀ j oc, getEntry (fixNextLink c tl k) j = some (.Occupied oc) →
      oc.generation ≤ g := by
  unfold fixNextLink
  cases tl with
  | none => exact hg
  | some t =>
    cases hge : getEntry c t with
    | none => simp only [hge]; exact hg
    | some e =>
      cases e with
      | Free nf => simp only [hge]; exact hg
      | Occupied oc =>
        simp only [hge]
        exact genBound_set_occ hg (hg t oc hge)

theorem genBound_fixPrevLink {c : List (Entry T)} {g : Nat}
    (hg : ∀ j oc, getEntry c j = some (.Occupied oc) → oc.generation ≤ g)
    (hd : Option Nat) (k : Nat) :
    ∀ j oc, getEntry (fixPrevLink c hd k) j = some (.Occupied oc) →
      oc.generation ≤ g := by
  unfold fixPrevLink
  cases hd with
  | none => exact hg
  | some hh =>
    cases hge : getEntry c hh with
    | none => simp only [hge]; exact hg
    | some e =>
      cases e with
      | Free nf => simp only [hge]; exact hg
      | Occupied oc =>
        simp only [hge]
        exact genBound_set_occ hg (hg hh oc hge)

theorem lastPtr_none (xs : List Nat) : lastPtr xs none = xs.getLast? := by
  unfold lastPtr
  cases xs.getLast? <;> rfl

theorem head?_append_ne_nil {xs : List Nat} (h : xs ≠ []) (ys : List Nat) :
    (xs ++ ys).head? = xs.head? := by
  cases xs with
  | nil => exact absurd rfl h
  | cons a t => rfl

theorem getLast?_none_eq_nil {xs : List Nat} (h : xs.getLast? = none) : xs = [] := by
  cases xs with
  | nil => rfl
  | cons a t => rw [List.getLast?_eq_none_iff] at h; exact h

theorem getLast?_some_decomp {xs : List Nat} {t : Nat} (h : xs.getLast? = some t) :
    ∃ S, xs = S ++ [t] := by
  rcases List.getLast?_eq_some_iff.mp h with ⟨S, rfl⟩
  exact ⟨S, rfl⟩

theorem mem_of_getLast?_eq {xs : List Nat} {t : Nat} (h : xs.getLast? = some t) : t ∈ xs := by
  obtain ⟨S, rfl⟩ := getLast?_some_decomp h
  exact List.mem_append_right S (List.mem_singleton_self t)

theorem nodup_concat_parts {S : List Nat} {t : Nat} (h : (S ++ [t]).Nodup) :
    t ∉ S ∧ S.Nodup := by
  rw [List.nodup_append] at h
  exact ⟨fun hm => h.2.2 hm (List.mem_singleton_self t), h.1⟩

theorem nodup_concat_of {seq : List Nat} {i : Nat} (h1 : seq.Nodup) (h2 : i ∉ seq) :
    (seq ++ [i]).Nodup := by
  rw [List.nodup_append]
  refine ⟨h1, List.nodup_singleton i, ?_⟩
  intro a ha hb
  rw [List.mem_singleton] at hb
  subst hb
  exact h2 ha

theorem nextPtr_append (xs ys : List Nat) (n : Option Nat) :
    nextPtr (xs ++ ys) n = nextPtr xs (nextPtr ys n) := by
  cases xs <;> rfl

theorem lastPtr_cons (i : Nat) (rest : List Nat) (p : Option Nat) :
    lastPtr (i :: rest) p = lastPtr rest (some i) := by
  cases rest with
  | nil => rfl
  | cons j t => simp [lastPtr, List.getLast?]

theorem lastPtr_concat (xs : List Nat) (i : Nat) (p : Option Nat) :
    lastPtr (xs ++ [i]) p = some i := by
  simp [lastPtr, List.getLast?_concat]

theorem dseg_frame {c c' : List (Entry T)} {xs : List Nat} {p n : Option Nat}
    (hfr : ∀ j, j ∈ xs → getEntry c' j = getEntry c j) (hd : dseg c p xs n) :
    dseg c' p xs n := by
  induction xs generalizing p with
  | nil => trivial
  | cons i rest ih =>
    obtain ⟨⟨oc, hoc, hprev, hnext⟩, hrest⟩ := hd
    refine ⟨⟨oc, ?_, hprev, hnext⟩, ih (fun j hj => hfr j (List.mem_cons_of_mem _ hj)) hrest⟩
    rw [hfr i (List.mem_cons_self _ _)]
    exact hoc

theorem dseg_mem_occ {c : List (Entry T)} {xs : List Nat} {p n : Option Nat}
    (hd : dseg c p xs n) : ∀ j ∈ xs, ∃ oc, getEntry c j = some (.Occupied oc) := by
  induction xs generalizing p with
  | nil => intro j hj; exact absurd hj (List.not_mem_nil j)
  | cons i rest ih =>
    obtain ⟨⟨oc, hoc, _, _⟩, hrest⟩ := hd
    intro j hj
    rcases List.mem_cons.mp hj with rfl | hj
    · exact ⟨oc, hoc⟩
    · exact ih hrest j hj

theorem dseg_append {c : List (Entry T)} {xs ys : List Nat} {p n : Option Nat} :
    dseg c p (xs ++ ys) n ↔
      dseg c p xs (nextPtr ys n) ∧ dseg c (lastPtr xs p) ys n := by
  induction xs generalizing p with
  | nil =>
    constructor
    · intro h; exact ⟨trivial, h⟩
    · intro h; exact h.2
  | cons i rest ih =>
    constructor
    · rintro ⟨⟨oc, hoc, hp, hn⟩, hrest⟩
      obtain ⟨h1, h2⟩ := ih.mp hrest
      rw [List.append_eq, nextPtr_append] at hn
      rw [lastPtr_cons]
      exact ⟨⟨⟨oc, hoc, hp, hn⟩, h1⟩, h2⟩
    · rintro ⟨⟨⟨oc, hoc, hp, hn⟩, h1⟩, h2⟩
      rw [lastPtr_cons] at h2
      refine ⟨⟨oc, hoc, hp, ?_⟩, ih.mpr ⟨h1, h2⟩⟩
      rw [List.append_eq, nextPtr_append]
      exact hn

theorem fchain_frame {c c' : List (Entry T)} {fs : List Nat}
    (hfr : ∀ j, j ∈ fs → getEntry c' j = getEntry c j) (hf : fchain c fs) : fchain c' fs := by
  induction fs with
  | nil => trivial
  | cons i rest ih =>
    obtain ⟨hi, hrest⟩ := hf
    refine ⟨?_, ih (fun j hj => hfr j (List.mem_cons_of_mem _ hj)) hrest⟩
    rw [hfr i (List.mem_cons_self _ _)]
    exact hi

theorem fchain_mem_free {c : List (Entry T)} {fs : List Nat} (hf : fchain c fs) :
    ∀ j ∈ fs, ∃ nf, getEntry c j = some (.Free nf) := by
  induction fs with
  | nil => intro j hj; exact absurd hj (List.not_mem_nil j)
  | cons i rest ih =>
    obtain ⟨hi, hrest⟩ := hf
    intro j hj
    rcases List.mem_cons.mp hj with rfl | hj
    · exact ⟨_, hi⟩
    · exact ih hrest j hj

theorem WfW.mem_seq_occ {l : IndexList T} {seq fs : List Nat} (hw : WfW l seq fs)
    {j : Nat} (hj : j ∈ seq) : ∃ oc, getEntry l.contents j = some (.Occupied oc) :=
  dseg_mem_occ hw.chain j hj

theorem WfW.mem_fs_free {l : IndexList T} {seq fs : List Nat} (hw : WfW l seq fs)
    {j : Nat} (hj : j ∈ fs) : ∃ nf, getEntry l.contents j = some (.Free nf) :=
  fchain_mem_free hw.fsc j hj

theorem WfW.not_mem_both {l : IndexList T} {seq fs : List Nat} (hw : WfW l seq fs)
    {j : Nat} (hs : j ∈ seq) (hf : j ∈ fs) : False := by
  obtain ⟨oc, hoc⟩ := hw.mem_seq_occ hs
  obtain ⟨nf, hnf⟩ := hw.mem_fs_free hf
  rw [hoc] at hnf
  exact Entry.noConfusion (Option.some.inj hnf)

theorem WfW.mem_seq_lt {l : IndexList T} {seq fs : List Nat} (hw : WfW l seq fs)
    {j : Nat} (hj : j ∈ seq) : j < l.contents.length := by
  obtain ⟨oc, hoc⟩ := hw.mem_seq_occ hj
  exact getEntry_lt hoc

theorem WfW.mem_fs_lt {l : IndexList T} {seq fs : List Nat} (hw : WfW l seq fs)
    {j : Nat} (hj : j ∈ fs) : j < l.contents.length := by
  obtain ⟨nf, hnf⟩ := hw.mem_fs_free hj
  exact getEntry_lt hnf

theorem WfW.occ_mem_seq {l : IndexList T} {seq fs : List Nat} (hw : WfW l seq fs)
    {j : Nat} {oc : OccupiedEntry T} (hj : getEntry l.contents j = some (.Occupied oc)) :
    j ∈ seq := by
  rcases hw.cover j (getEntry_lt hj) with hs | hf
  · exact hs
  · obtain ⟨nf, hnf⟩ := hw.mem_fs_free hf
    rw [hj] at hnf
    exact absurd (Option.some.inj hnf) (fun he => Entry.noConfusion he)

theorem WfW.free_mem_fs {l : IndexList T} {seq fs : List Nat} (hw : WfW l seq fs)
    {j : Nat} {nf : Option Nat} (hj : getEntry l.contents j = some (.Free nf)) :
    j ∈ fs := by
  rcases hw.cover j (getEntry_lt hj) with hs | hf
  · obtain ⟨oc, hoc⟩ := hw.mem_seq_occ hs
    rw [hj] at hoc
    exact absurd (Option.some.inj hoc) (fun he => Entry.noConfusion he)
  · exact hf

/-- Extending a whole chain by a new final node `i`: the new node is
`Occupied` with `prev` pointing at the old last node and `next = none`,
the old last node's `next` was redirected to `i`, and every other chain
entry is untouched. -/
theorem dseg_extend {c c2 : List (Entry T)} {seq : List Nat} {i : Nat}
    {noc : OccupiedEntry T}
    (hch : dseg c none seq none)
    (hnd : seq.Nodup)
    (hi2 : getEntry c2 i = some (.Occupied noc))
    (hprev : noc.prev = lastPtr seq none)
    (hnext : noc.next = none)
    (hmid : ∀ j ∈ seq, seq.getLast? ≠ some j → getEntry c2 j = getEntry c j)
    (hlast : ∀ t oct, seq.getLast? = some t → getEntry c t = some (.Occupied oct) →
      getEntry c2 t = some (.Occupied { oct with next := some i })) :
    dseg c2 none (seq ++ [i]) none := by
  cases hlq : seq.getLast? with
  | none =>
    have hge : seq = [] := getLast?_none_eq_nil hlq
    subst hge
    refine ⟨⟨noc, hi2, ?_, hnext⟩, trivial⟩
    rw [hprev]
    rfl
  | some t =>
    obtain ⟨S, rfl⟩ := getLast?_some_decomp hlq
    obtain ⟨htS, hndS⟩ := nodup_concat_parts hnd
    obtain ⟨hS, hT⟩ := dseg_append.mp hch
    obtain ⟨⟨oct, hoct, hoctp, hoctn⟩, -⟩ := hT
    rw [List.append_assoc]
    refine dseg_append.mpr ⟨?_, ?_⟩
    · refine dseg_frame (fun j hj => hmid j (List.mem_append_left _ hj) ?_) hS
      rw [hlq]
      intro hcon
      injection hcon with hcon
      exact htS (hcon ▸ hj)
    · have ht2 : getEntry c2 t = some (.Occupied { oct with next := some i }) :=
        hlast t oct hlq hoct
      refine ⟨⟨{ oct with next := some i }, ht2, hoctp, rfl⟩, ⟨noc, hi2, ?_, hnext⟩, trivial⟩
      rw [hprev, lastPtr_concat]

/-- Prepending a new first node `i` to a whole chain: mirror image of
`dseg_extend`. -/
theorem dseg_prepend {c c2 : List (Entry T)} {seq : List Nat} {i : Nat}
    {noc : OccupiedEntry T}
    (hch : dseg c none seq none)
    (hnd : seq.Nodup)
    (hi2 : getEntry c2 i = some (.Occupied noc))
    (hprev : noc.prev = none)
    (hnext : noc.next = nextPtr seq none)
    (hmid : ∀ j ∈ seq, seq.head? ≠ some j → getEntry c2 j = getEntry c j)
    (hfirst : ∀ hh och, seq.head? = some hh → getEntry c hh = some (.Occupied och) →
      getEntry c2 hh = some (.Occupied { och with prev := some i })) :
    dseg c2 none (i :: seq) none := by
  cases seq with
  | nil => exact ⟨⟨noc, hi2, hprev, hnext⟩, trivial⟩
  | cons hh rest =>
    obtain ⟨⟨och, hoch, hochp, hochn⟩, hrest⟩ := hch
    have hndc := hnd
    rw [List.nodup_cons] at hndc
    refine ⟨⟨noc, hi2, hprev, hnext⟩,
      ⟨{ och with prev := some i }, hfirst hh och rfl hoch, rfl, hochn⟩, ?_⟩
    refine dseg_frame (fun j hj => hmid j (List.mem_cons_of_mem _ hj) ?_) hrest
    intro hcon
    injection hcon with hcon
    exact hndc.1 (hcon ▸ hj)

theorem unlinkPrev_ok_cases {c : List (Entry T)} {ocp ocn : Option Nat} {c' : List (Entry T)}
    (hp : unlinkPrev c ocp ocn = .ok c') :
    c' = c ∨ ∃ p pe, ocp = some p ∧ getEntry c p = some (.Occupied pe) ∧
      c' = c.set p (.Occupied { pe with next := ocn }) := by
  unfold unlinkPrev at hp
  cases ocp with
  | none => injection hp with hp; exact Or.inl hp.symm
  | some p =>
    cases hpe : getEntry c p with
    | none =>
      simp only [hpe] at hp
      injection hp with hp
      exact Or.inl hp.symm
    | some e =>
      cases e with
      | Free nf => simp only [hpe] at hp; exact PRes.noConfusion hp
      | Occupied pe =>
        simp only [hpe] at hp
        injection hp with hp
        exact Or.inr ⟨p, pe, rfl, hpe, hp.symm⟩

theorem unlinkNext_ok_cases {c : List (Entry T)} {ocn ocp : Option Nat} {c' : List (Entry T)}
    (hp : unlinkNext c ocn ocp = .ok c') :
    c' = c ∨ ∃ n ne, ocn = some n ∧ getEntry c n = some (.Occupied ne) ∧
      c' = c.set n (.Occupied { ne with prev := ocp }) := by
  unfold unlinkNext at hp
  cases ocn with
  | none => injection hp with hp; exact Or.inl hp.symm
  | some n =>
    cases hne : getEntry c n with
    | none =>
      simp only [hne] at hp
      injection hp with hp
      exact Or.inl hp.symm
    | some e =>
      cases e with
      | Free nf => simp only [hne] at hp; exact PRes.noConfusion hp
      | Occupied ne =>
        simp only [hne] at hp
        injection hp with hp
        exact Or.inr ⟨n, ne, rfl, hne, hp.symm⟩

theorem unlinkPrev_ok_length {c : List (Entry T)} {ocp ocn : Option Nat} {c' : List (Entry T)}
    (hp : unlinkPrev c ocp ocn = .ok c') : c'.length = c.length := by
  rcases unlinkPrev_ok_cases hp with rfl | ⟨p, pe, _, _, rfl⟩
  · rfl
  · exact List.length_set c p _

theorem unlinkNext_ok_length {c : List (Entry T)} {ocn ocp : Option Nat} {c' : List (Entry T)}
    (hp : unlinkNext c ocn ocp = .ok c') : c'.length = c.length := by
  rcases unlinkNext_ok_cases hp with rfl | ⟨n, ne, _, _, rfl⟩
  · rfl
  · exact List.length_set c n _

theorem removeFinish_ok_some {l : IndexList T} {idx : Index} {c2 : List (Entry T)} {v : T}
    {l' : IndexList T} (hp : removeFinish l idx c2 = .ok (some v, l')) :
    ∃ oc2 : OccupiedEntry T, getEntry c2 idx.index = some (.Occupied oc2) ∧ v = oc2.item ∧
      l' = { contents := c2.set idx.index (.Free l.next_free),
             generation := l.generation + 1,
             next_free := some idx.index,
             head :=
               match l.head with
               | some hi => if hi = idx.index then oc2.next else l.head
               | none => l.head,
             tail :=
               match l.tail with
               | some ti => if ti = idx.index then oc2.prev else l.tail
               | none => l.tail,
             count := l.count - 1 } := by
  unfold removeFinish at hp
  cases hcur : getEntry c2 idx.index with
  | none =>
    simp only [hcur, PRes.ok.injEq, Prod.mk.injEq] at hp
    exact absurd hp.1 (by simp)
  | some cur =>
    cases cur with
    | Free nf =>
      simp only [hcur, PRes.ok.injEq, Prod.mk.injEq] at hp
      exact absurd hp.1 (by simp)
    | Occupied oc2 =>
      simp only [hcur, PRes.ok.injEq, Prod.mk.injEq, Option.some.injEq] at hp
      exact ⟨oc2, rfl, hp.1.symm, hp.2.symm⟩

theorem getLast?_append_right_ne_nil {xs ys : List Nat} (h : ys ≠ []) :
    (xs ++ ys).getLast? = ys.getLast? := by
  rw [List.getLast?_append]
  cases hgl : ys.getLast? with
  | none => exact absurd (by rwa [List.getLast?_eq_none_iff] at hgl) h
  | some t => rfl

theorem getLast?_some_of_ne_nil {xs : List Nat} (h : xs ≠ []) : ∃ t, xs.getLast? = some t := by
  cases hgl : xs.getLast? with
  | none => exact absurd (by rwa [List.getLast?_eq_none_iff] at hgl) h
  | some t => exact ⟨t, rfl⟩

theorem nodup_middle_parts {A : List Nat} {i : Nat} {B : List Nat}
    (h : (A ++ i :: B).Nodup) :
    i ∉ A ∧ i ∉ B ∧ A.Nodup ∧ B.Nodup ∧ ∀ j, j ∈ A → j ∈ B → False := by
  rw [List.nodup_append] at h
  obtain ⟨hA, hIB, hdisj⟩ := h
  rw [List.nodup_cons] at hIB
  refine ⟨fun hm => hdisj hm (List.mem_cons_self _ _), hIB.1, hA, hIB.2, ?_⟩
  intro j hjA hjB
  exact hdisj hjA (List.mem_cons_of_mem _ hjB)

theorem nodup_append_of_middle {A : List Nat} {i : Nat} {B : List Nat}
    (h : (A ++ i :: B).Nodup) : (A ++ B).Nodup :=
  h.sublist (List.Sublist.append (List.Sublist.refl A) (List.sublist_cons_self i B))

theorem genBound_unlinkPrev_ok {c c' : List (Entry T)} {ocp ocn : Option Nat} {g : Nat}
    (h : unlinkPrev c ocp ocn = .ok c')
    (hg : ∀ j oc, getEntry c j = some (.Occupied oc) → oc.generation ≤ g) :
    ∀ j oc, getEntry c' j = some (.Occupied oc) → oc.generation ≤ g := by
  rcases unlinkPrev_ok_cases h with rfl | ⟨p, pe, _, hpe, rfl⟩
  · exact hg
  · exact genBound_set_occ hg (hg p pe hpe)

theorem genBound_unlinkNext_ok {c c' : List (Entry T)} {ocn ocp : Option Nat} {g : Nat}
    (h : unlinkNext c ocn ocp = .ok c')
    (hg : ∀ j oc, getEntry c j = some (.Occupied oc) → oc.generation ≤ g) :
    ∀ j oc, getEntry c' j = some (.Occupied oc) → oc.generation ≤ g := by
  rcases unlinkNext_ok_cases h with rfl | ⟨n, ne, _, hne, rfl⟩
  · exact hg
  · exact genBound_set_occ hg (hg n ne hne)

/-- Running the predecessor unlink of `remove` on the segment `A` that
precedes the removed slot: it succeeds, rewires the last slot of `A` to
exit to `ocn`, and touches nothing else. -/
theorem unlinkPrev_chain {c : List (Entry T)} {A : List Nat} {i : Nat} {ocn : Option Nat}
    (hA : dseg c none A (some i)) (hnd : A.Nodup) :
    ∃ c1, unlinkPrev c (lastPtr A none) ocn = .ok c1 ∧
      c1.length = c.length ∧
      (∀ j, A.getLast? ≠ some j → getEntry c1 j = getEntry c j) ∧
      dseg c1 none A ocn := by
  cases hlq : A.getLast? with
  | none =>
    have hnil : A = [] := getLast?_none_eq_nil hlq
    subst hnil
    exact ⟨c, rfl, rfl, fun j _ => rfl, trivial⟩
  | some p =>
    obtain ⟨A', rfl⟩ := getLast?_some_decomp hlq
    obtain ⟨hpA', hndA'⟩ := nodup_concat_parts hnd
    obtain ⟨hA', hP⟩ := dseg_append.mp hA
    obtain ⟨⟨ocp, hocp, hocpp, hocpn⟩, -⟩ := hP
    refine ⟨c.set p (.Occupied { ocp with next := ocn }), ?_,
      List.length_set c p _, ?_, ?_⟩
    · rw [lastPtr_concat]
      unfold unlinkPrev
      simp only [hocp]
    · intro j hj
      have hpj : p ≠ j := fun he => hj (by rw [he])
      exact getEntry_set_ne hpj _
    · refine dseg_append.mpr ⟨?_, ?_⟩
      · exact dseg_frame
          (fun j hj => getEntry_set_ne (fun he => hpA' (by rw [he]; exact hj)) _) hA'
      · exact ⟨⟨{ ocp with next := ocn },
          getEntry_set_self (getEntry_lt hocp) _, hocpp, rfl⟩, trivial⟩

/-- Running the successor unlink of `remove` on the segment `B` that
follows the removed slot: it succeeds, rewires the first slot of `B` to
enter from `ocp`, and touches nothing else. -/
theorem unlinkNext_chain {c1 : List (Entry T)} {B : List Nat} {i : Nat} {ocp : Option Nat}
    (hB : dseg c1 (some i) B none) (hnd : B.Nodup) :
    ∃ c2, unlinkNext c1 (nextPtr B none) ocp = .ok c2 ∧
      c2.length = c1.length ∧
      (∀ j, B.head? ≠ some j → getEntry c2 j = getEntry c1 j) ∧
      dseg c2 ocp B none := by
  cases B with
  | nil => exact ⟨c1, rfl, rfl, fun j _ => rfl, trivial⟩
  | cons n B' =>
    obtain ⟨⟨ocn, hocn, hocnp, hocnn⟩, hB'⟩ := hB
    have hnB' : n ∉ B' := (List.nodup_cons.mp hnd).1
    refine ⟨c1.set n (.Occupied { ocn with prev := ocp }), ?_,
      List.length_set c1 n _, ?_, ?_⟩
    · unfold unlinkNext
      simp only [nextPtr, hocn]
    · intro j hj
      have hnj : n ≠ j := fun he => hj (by rw [List.head?_cons, he])
      exact getEntry_set_ne hnj _
    · refine ⟨⟨{ ocn with prev := ocp },
        getEntry_set_self (getEntry_lt hocn) _, rfl, hocnn⟩, ?_⟩
      exact dseg_frame
        (fun j hj => getEntry_set_ne (fun he => hnB' (by rw [he]; exact hj)) _) hB'

/-- Shape of the state produced by a successful element-returning
`remove`: the handle addressed an `Occupied` slot with matching
generation; afterwards that slot holds `Free l.next_free` and heads the
free chain, the generation counter was bumped exactly once, and the
count decremented; the array length is unchanged. -/
theorem remove_ok_some {l : IndexList T} {idx : Index} {v : T} {l' : IndexList T}
    (hp : remove l idx = .ok (some v, l')) :
    ∃ oc : OccupiedEntry T,
      getEntry l.contents idx.index = some (.Occupied oc) ∧
      oc.generation = idx.generation ∧
      l'.next_free = some idx.index ∧
      l'.generation = l.generation + 1 ∧
      l'.count = l.count - 1 ∧
      getEntry l'.contents idx.index = some (.Free l.next_free) ∧
      l'.contents.length = l.contents.length := by
  unfold remove at hp
  cases hge : getEntry l.contents idx.index with
  | none =>
    simp only [hge, PRes.ok.injEq, Prod.mk.injEq] at hp
    exact absurd hp.1 (by simp)
  | some e =>
    cases e with
    | Free nf =>
      simp only [hge, PRes.ok.injEq, Prod.mk.injEq] at hp
      exact absurd hp.1 (by simp)
    | Occupied oc =>
      simp only [hge] at hp
      by_cases hgen : idx.generation = oc.generation
      · rw [if_neg (by simpa using hgen)] at hp
        cases hs1 : unlinkPrev l.contents oc.prev oc.next with
        | panic => simp only [hs1] at hp; exact PRes.noConfusion hp
        | ok c1 =>
          simp only [hs1] at hp
          cases hs2 : unlinkNext c1 oc.next oc.prev with
          | panic => simp only [hs2] at hp; exact PRes.noConfusion hp
          | ok c2 =>
            simp only [hs2] at hp
            obtain ⟨oc2, hcur, hv, rfl⟩ := removeFinish_ok_some hp
            have hlen : c2.length = l.contents.length := by
              rw [unlinkNext_ok_length hs2, unlinkPrev_ok_length hs1]
            have hin : idx.index < c2.length := hlen ▸ getEntry_lt hge
            refine ⟨oc, rfl, hgen.symm, rfl, rfl, rfl, ?_, ?_⟩
            · exact getEntry_set_self hin _
            · simpa [List.length_set] using hlen
      · rw [if_pos (by simpa using hgen)] at hp
        simp only [PRes.ok.injEq, Prod.mk.injEq] at hp
        exact absurd hp.1 (by simp)

/-- `push_back` preserves well-formedness: the new slot is appended to
the sequence order and popped off the free chain. -/
theorem wfW_push_back {l : IndexList T} {seq fs : List Nat} (hw : WfW l seq fs) (x : T) :
    ∃ i l', push_back l x = .ok (⟨i, l.generation⟩, l') ∧ WfW l' (seq ++ [i]) fs.tail := by
  cases fs with
  | cons i fs' =>
    have hnf : l.next_free = some i := hw.nf_eq
    obtain ⟨hife, hfs'⟩ := hw.fsc
    have hilt : i < l.contents.length := getEntry_lt hife
    have hiseq : i ∉ seq := fun hm => hw.not_mem_both hm (List.mem_cons_self _ _)
    have hndc := hw.fs_nd
    rw [List.nodup_cons] at hndc
    have htne : l.tail ≠ some i := by
      rw [hw.tail_eq]
      intro hcon
      exact hiseq (mem_of_getLast?_eq hcon)
    refine ⟨i, _, push_back_free_eq hnf hife x, ?_⟩
    set noc : OccupiedEntry T := ⟨x, l.generation, none, l.tail⟩ with hnoc
    set c1 : List (Entry T) := l.contents.set i (.Occupied noc) with hc1
    set c2 : List (Entry T) := fixNextLink c1 l.tail i with hc2
    have hc1i : getEntry c1 i = some (.Occupied noc) := getEntry_set_self hilt _
    have hc2len : c2.length = l.contents.length := by
      rw [hc2, length_fixNextLink, hc1, List.length_set]
    have hc2i : getEntry c2 i = some (.Occupied noc) := by
      rw [hc2, getEntry_fixNextLink_ne htne]
      exact hc1i
    have hc2mid : ∀ j ∈ seq, seq.getLast? ≠ some j →
        getEntry c2 j = getEntry l.contents j := by
      intro j hj hne
      rw [hc2, getEntry_fixNextLink_ne (by rw [hw.tail_eq]; exact hne), hc1]
      exact getEntry_set_ne (fun he => hiseq (by rw [he]; exact hj)) _
    have hc2last : ∀ t oct, seq.getLast? = some t →
        getEntry l.contents t = some (.Occupied oct) →
        getEntry c2 t = some (.Occupied { oct with next := some i }) := by
      intro t oct hlq hoct
      have hti : i ≠ t := fun he => hiseq (by rw [he]; exact mem_of_getLast?_eq hlq)
      have hc1t : getEntry c1 t = some (.Occupied oct) := by
        rw [hc1, getEntry_set_ne hti]
        exact hoct
      rw [hc2, hw.tail_eq, hlq]
      exact getEntry_fixNextLink_tl hc1t
    have hfsother : ∀ j ∈ fs', getEntry c2 j = getEntry l.contents j := by
      intro j hj
      have hji : i ≠ j := fun he => hndc.1 (by rw [he]; exact hj)
      have hjt : l.tail ≠ some j := by
        rw [hw.tail_eq]
        intro hcon
        exact hw.not_mem_both (mem_of_getLast?_eq hcon) (List.mem_cons_of_mem _ hj)
      rw [hc2, getEntry_fixNextLink_ne hjt, hc1]
      exact getEntry_set_ne hji _
    refine { head_eq := ?_, tail_eq := ?_, count_eq := ?_, nf_eq := rfl,
             seq_nd := nodup_concat_of hw.seq_nd hiseq, fs_nd := hndc.2,
             chain := ?_, fsc := fchain_frame hfsother hfs', cover := ?_, gen_le := ?_ }
    · show (if l.head = none then some i else l.head) = (seq ++ [i]).head?
      rw [hw.head_eq]
      cases seq with
      | nil => simp
      | cons s srest => simp
    · show some i = (seq ++ [i]).getLast?
      rw [List.getLast?_concat]
    · show l.count + 1 = (seq ++ [i]).length
      rw [hw.count_eq, List.length_append, List.length_singleton]
    · refine dseg_extend hw.chain hw.seq_nd hc2i ?_ rfl hc2mid hc2last
      show l.tail = lastPtr seq none
      rw [hw.tail_eq, lastPtr_none]
    · intro j hjlt
      rw [hc2len] at hjlt
      rcases hw.cover j hjlt with hs | hf
      · exact Or.inl (List.mem_append_left _ hs)
      · rcases List.mem_cons.mp hf with rfl | hf'
        · exact Or.inl (List.mem_append_right _ (List.mem_singleton_self _))
        · exact Or.inr hf'
    · exact genBound_fixNextLink (genBound_set_occ hw.gen_le (le_refl _)) l.tail i
  | nil =>
    have hnf : l.next_free = none := hw.nf_eq
    refine ⟨l.contents.length, _, push_back_append_eq hnf x, ?_⟩
    set noc : OccupiedEntry T := ⟨x, l.generation, none, l.tail⟩ with hnoc
    set c1 : List (Entry T) := l.contents ++ [.Occupied noc] with hc1
    set c2 : List (Entry T) := fixNextLink c1 l.tail l.contents.length with hc2
    have hiseq : l.contents.length ∉ seq := fun hm => absurd (hw.mem_seq_lt hm) (lt_irrefl _)
    have htne : l.tail ≠ some l.contents.length := by
      rw [hw.tail_eq]
      intro hcon
      exact hiseq (mem_of_getLast?_eq hcon)
    have hc1i : getEntry c1 l.contents.length = some (.Occupied noc) := getEntry_append_len _ _
    have hc2len : c2.length = l.contents.length + 1 := by
      rw [hc2, length_fixNextLink, hc1, List.length_append, List.length_singleton]
    have hc2i : getEntry c2 l.contents.length = some (.Occupied noc) := by
      rw [hc2, getEntry_fixNextLink_ne htne]
      exact hc1i
    have hc1mem : ∀ j ∈ seq, getEntry c1 j = getEntry l.contents j := by
      intro j hj
      rw [hc1]
      exact getEntry_append_lt (hw.mem_seq_lt hj) _
    have hc2mid : ∀ j ∈ seq, seq.getLast? ≠ some j →
        getEntry c2 j = getEntry l.contents j := by
      intro j hj hne
      rw [hc2, getEntry_fixNextLink_ne (by rw [hw.tail_eq]; exact hne)]
      exact hc1mem j hj
    have hc2last : ∀ t oct, seq.getLast? = some t →
        getEntry l.contents t = some (.Occupied oct) →
        getEntry c2 t = some (.Occupied { oct with next := some l.contents.length }) := by
      intro t oct hlq hoct
      have hc1t : getEntry c1 t = some (.Occupied oct) := by
        rw [← hoct]
        exact hc1mem t (mem_of_getLast?_eq hlq)
      rw [hc2, hw.tail_eq, hlq]
      exact getEntry_fixNextLink_tl hc1t
    refine { head_eq := ?_, tail_eq := ?_, count_eq := ?_, nf_eq := rfl,
             seq_nd := nodup_concat_of hw.seq_nd hiseq, fs_nd := List.nodup_nil,
             chain := ?_, fsc := trivial, cover := ?_, gen_le := ?_ }
    · show (if l.head = none then some 0 else l.head) = (seq ++ [l.contents.length]).head?
      rw [hw.head_eq]
      cases hsq : seq with
      | nil =>
        have hlen0 : l.contents.length = 0 := by
          by_contra h0ne
          rcases hw.cover 0 (Nat.pos_of_ne_zero h0ne) with hs | hf
          · rw [hsq] at hs
            exact (List.not_mem_nil 0) hs
          · exact (List.not_mem_nil 0) hf
        simp [hlen0]
      | cons s srest => simp
    · show some l.contents.length = (seq ++ [l.contents.length]).getLast?
      rw [List.getLast?_concat]
    · show l.count + 1 = (seq ++ [l.contents.length]).length
      rw [hw.count_eq, List.length_append, List.length_singleton]
    · refine dseg_extend hw.chain hw.seq_nd hc2i ?_ rfl hc2mid hc2last
      show l.tail = lastPtr seq none
      rw [hw.tail_eq, lastPtr_none]
    · intro j hjlt
      rw [hc2len] at hjlt
      rcases Nat.lt_or_ge j l.contents.length with hlt | hge
      · rcases hw.cover j hlt with hs | hf
        · exact Or.inl (List.mem_append_left _ hs)
        · exact absurd hf (List.not_mem_nil j)
      · have hje : j = l.contents.length := by omega
        subst hje
        exact Or.inl (List.mem_append_right _ (List.mem_singleton_self _))
    · exact genBound_fixNextLink (genBound_append_occ hw.gen_le (le_refl _)) l.tail _

theorem mem_of_head?_eq {xs : List Nat} {h : Nat} (hh : xs.head? = some h) : h ∈ xs := by
  cases xs with
  | nil => exact Option.noConfusion hh
  | cons a t =>
    rw [List.head?_cons] at hh
    injection hh with hh
    rw [← hh]
    exact List.mem_cons_self _ _

theorem nextPtr_none (xs : List Nat) : nextPtr xs none = xs.head? := by
  cases xs <;> rfl

/-- `push_front` preserves well-formedness: the new slot is prepended to
the sequence order and popped off the free chain. -/
theorem wfW_push_front {l : IndexList T} {seq fs : List Nat} (hw : WfW l seq fs) (x : T) :
    ∃ i l', push_front l x = .ok (⟨i, l.generation⟩, l') ∧ WfW l' (i :: seq) fs.tail := by
  cases fs with
  | cons i fs' =>
    have hnf : l.next_free = some i := hw.nf_eq
    obtain ⟨hife, hfs'⟩ := hw.fsc
    have hilt : i < l.contents.length := getEntry_lt hife
    have hiseq : i ∉ seq := fun hm => hw.not_mem_both hm (List.mem_cons_self _ _)
    have hndc := hw.fs_nd
    rw [List.nodup_cons] at hndc
    have hhne : l.head ≠ some i := by
      rw [hw.head_eq]
      intro hcon
      exact hiseq (mem_of_head?_eq hcon)
    refine ⟨i, _, push_front_free_eq hnf hife x, ?_⟩
    set noc : OccupiedEntry T := ⟨x, l.generation, l.head, none⟩ with hnoc
    set c1 : List (Entry T) := l.contents.set i (.Occupied noc) with hc1
    set c2 : List (Entry T) := fixPrevLink c1 l.head i with hc2
    have hc1i : getEntry c1 i = some (.Occupied noc) := getEntry_set_self hilt _
    have hc2len : c2.length = l.contents.length := by
      rw [hc2, length_fixPrevLink, hc1, List.length_set]
    have hc2i : getEntry c2 i = some (.Occupied noc) := by
      rw [hc2, getEntry_fixPrevLink_ne hhne]
      exact hc1i
    have hc2mid : ∀ j ∈ seq, seq.head? ≠ some j →
        getEntry c2 j = getEntry l.contents j := by
      intro j hj hne
      rw [hc2, getEntry_fixPrevLink_ne (by rw [hw.head_eq]; exact hne), hc1]
      exact getEntry_set_ne (fun he => hiseq (by rw [he]; exact hj)) _
    have hc2first : ∀ hh och, seq.head? = some hh →
        getEntry l.contents hh = some (.Occupied och) →
        getEntry c2 hh = some (.Occupied { och with prev := some i }) := by
      intro hh och hhq hoch
      have hti : i ≠ hh := fun he => hiseq (by rw [he]; exact mem_of_head?_eq hhq)
      have hc1h : getEntry c1 hh = some (.Occupied och) := by
        rw [hc1, getEntry_set_ne hti]
        exact hoch
      rw [hc2, hw.head_eq, hhq]
      exact getEntry_fixPrevLink_hd hc1h
    have hfsother : ∀ j ∈ fs', getEntry c2 j = getEntry l.contents j := by
      intro j hj
      have hji : i ≠ j := fun he => hndc.1 (by rw [he]; exact hj)
      have hjh : l.head ≠ some j := by
        rw [hw.head_eq]
        intro hcon
        exact hw.not_mem_both (mem_of_head?_eq hcon) (List.mem_cons_of_mem _ hj)
      rw [hc2, getEntry_fixPrevLink_ne hjh, hc1]
      exact getEntry_set_ne hji _
    refine { head_eq := rfl, tail_eq := ?_, count_eq := ?_, nf_eq := rfl,
             seq_nd := List.nodup_cons.mpr ⟨hiseq, hw.seq_nd⟩, fs_nd := hndc.2,
             chain := ?_, fsc := fchain_frame hfsother hfs', cover := ?_, gen_le := ?_ }
    · show (if l.tail = none then some i else l.tail) = (i :: seq).getLast?
      rw [hw.tail_eq]
      cases seq with
      | nil => simp
      | cons s srest => simp
    · show l.count + 1 = (i :: seq).length
      rw [hw.count_eq, List.length_cons]
    · refine dseg_prepend hw.chain hw.seq_nd hc2i rfl ?_ hc2mid hc2first
      show l.head = nextPtr seq none
      rw [hw.head_eq, nextPtr_none]
    · intro j hjlt
      rw [hc2len] at hjlt
      rcases hw.cover j hjlt with hs | hf
      · exact Or.inl (List.mem_cons_of_mem _ hs)
      · rcases List.mem_cons.mp hf with rfl | hf'
        · exact Or.inl (List.mem_cons_self _ _)
        · exact Or.inr hf'
    · exact genBound_fixPrevLink (genBound_set_occ hw.gen_le (le_refl _)) l.head i
  | nil =>
    have hnf : l.next_free = none := hw.nf_eq
    refine ⟨l.contents.length, _, push_front_append_eq hnf x, ?_⟩
    set noc : OccupiedEntry T := ⟨x, l.generation, l.head, none⟩ with hnoc
    set c1 : List (Entry T) := l.contents ++ [.Occupied noc] with hc1
    set c2 : List (Entry T) := fixPrevLink c1 l.head l.contents.length with hc2
    have hiseq : l.contents.length ∉ seq := fun hm => absurd (hw.mem_seq_lt hm) (lt_irrefl _)
    have hhne : l.head ≠ some l.contents.length := by
      rw [hw.head_eq]
      intro hcon
      exact hiseq (mem_of_head?_eq hcon)
    have hc1i : getEntry c1 l.contents.length = some (.Occupied noc) := getEntry_append_len _ _
    have hc2len : c2.length = l.contents.length + 1 := by
      rw [hc2, length_fixPrevLink, hc1, List.length_append, List.length_singleton]
    have hc2i : getEntry c2 l.contents.length = some (.Occupied noc) := by
      rw [hc2, getEntry_fixPrevLink_ne hhne]
      exact hc1i
    have hc1mem : ∀ j ∈ seq, getEntry c1 j = getEntry l.contents j := by
      intro j hj
      rw [hc1]
      exact getEntry_append_lt (hw.mem_seq_lt hj) _
    have hc2mid : ∀ j ∈ seq, seq.head? ≠ some j →
        getEntry c2 j = getEntry l.contents j := by
      intro j hj hne
      rw [hc2, getEntry_fixPrevLink_ne (by rw [hw.head_eq]; exact hne)]
      exact hc1mem j hj
    have hc2first : ∀ hh och, seq.head? = some hh →
        getEntry l.contents hh = some (.Occupied och) →
        getEntry c2 hh = some (.Occupied { och with prev := some l.contents.length }) := by
      intro hh och hhq hoch
      have hc1h : getEntry c1 hh = some (.Occupied och) := by
        rw [← hoch]
        exact hc1mem hh (mem_of_head?_eq hhq)
      rw [hc2, hw.head_eq, hhq]
      exact getEntry_fixPrevLink_hd hc1h
    refine { head_eq := rfl, tail_eq := ?_, count_eq := ?_, nf_eq := rfl,
             seq_nd := List.nodup_cons.mpr ⟨hiseq, hw.seq_nd⟩, fs_nd := List.nodup_nil,
             chain := ?_, fsc := trivial, cover := ?_, gen_le := ?_ }
    · show (if l.tail = none then some 0 else l.tail) = (l.contents.length :: seq).getLast?
      rw [hw.tail_eq]
      cases hsq : seq with
      | nil =>
        have hlen0 : l.contents.length = 0 := by
          by_contra h0ne
          rcases hw.cover 0 (Nat.pos_of_ne_zero h0ne) with hs | hf
          · rw [hsq] at hs
            exact (List.not_mem_nil 0) hs
          · exact (List.not_mem_nil 0) hf
        simp [hlen0]
      | cons s srest => simp
    · show l.count + 1 = (l.contents.length :: seq).length
      rw [hw.count_eq, List.length_cons]
    · refine dseg_prepend hw.chain hw.seq_nd hc2i rfl ?_ hc2mid hc2first
      show l.head = nextPtr seq none
      rw [hw.head_eq, nextPtr_none]
    · intro j hjlt
      rw [hc2len] at hjlt
      rcases Nat.lt_or_ge j l.contents.length with hlt | hge
      · rcases hw.cover j hlt with hs | hf
        · exact Or.inl (List.mem_cons_of_mem _ hs)
        · exact absurd hf (List.not_mem_nil j)
      · have hje : j = l.contents.length := by omega
        subst hje
        exact Or.inl (List.mem_cons_self _ _)
    · exact genBound_fixPrevLink (genBound_append_occ hw.gen_le (le_refl _)) l.head _

/-- `remove` on a well-formed list never panics: an invalid handle leaves
the list untouched and returns `none`; a valid handle splices its slot
out of the sequence, pushes it on the free chain, and returns the
element.  Well-formedness is preserved. -/
theorem wfW_remove {l : IndexList T} {seq fs : List Nat} (hw : WfW l seq fs) (idx : Index) :
    (¬ validHandle l idx ∧ remove l idx = .ok (none, l)) ∨
    (∃ (oc : OccupiedEntry T) (A B : List Nat) (l' : IndexList T),
      validHandle l idx ∧
      getEntry l.contents idx.index = some (.Occupied oc) ∧
      seq = A ++ idx.index :: B ∧
      remove l idx = .ok (some oc.item, l') ∧
      WfW l' (A ++ B) (idx.index :: fs)) := by
  cases hge : getEntry l.contents idx.index with
  | none =>
    left
    constructor
    · unfold validHandle
      simp only [hge]
      exact fun h => h
    · unfold remove
      simp only [hge]
  | some e =>
    cases e with
    | Free nf =>
      left
      constructor
      · unfold validHandle
        simp only [hge]
        exact fun h => h
      · unfold remove
        simp only [hge]
    | Occupied oc =>
      by_cases hgen : oc.generation = idx.generation
      case neg =>
        left
        constructor
        · unfold validHandle
          simp only [hge]
          exact hgen
        · unfold remove
          simp only [hge]
          rw [if_pos (show idx.generation ≠ oc.generation from fun he => hgen he.symm)]
      case pos =>
        right
        have hvh : validHandle l idx := by
          unfold validHandle
          simp only [hge]
          exact hgen
        have hidxlt : idx.index < l.contents.length := getEntry_lt hge
        have hiseq : idx.index ∈ seq := hw.occ_mem_seq hge
        obtain ⟨A, B, hseq⟩ := List.append_of_mem hiseq
        have hnd := hw.seq_nd
        rw [hseq] at hnd
        obtain ⟨hiA, hiB, hndA, hndB, hABdisj⟩ := nodup_middle_parts hnd
        have hch := hw.chain
        rw [hseq] at hch
        obtain ⟨hA, hIB⟩ := dseg_append.mp hch
        obtain ⟨⟨oci, hoci, hocip, hocin⟩, hB⟩ := hIB
        rw [hge] at hoci
        injection hoci with hoci
        injection hoci with hoci
        subst hoci
        obtain ⟨c1, hu1, hlen1, hfr1, hA1⟩ :=
          @unlinkPrev_chain T l.contents A idx.index oc.next hA hndA
        have hB1 : dseg c1 (some idx.index) B none := by
          refine dseg_frame (fun j hj => hfr1 j ?_) hB
          intro hcon
          exact hABdisj j (mem_of_getLast?_eq hcon) hj
        obtain ⟨c2, hu2, hlen2, hfr2, hB2⟩ :=
          @unlinkNext_chain T c1 B idx.index oc.prev hB1 hndB
        have hc2idx : getEntry c2 idx.index = some (.Occupied oc) := by
          rw [hfr2 _ (fun hcon => hiB (mem_of_head?_eq hcon)),
              hfr1 _ (fun hcon => hiA (mem_of_getLast?_eq hcon))]
          exact hge
        have hifs : idx.index ∉ fs := fun hm => hw.not_mem_both hiseq hm
        have hrem : remove l idx = removeFinish l idx c2 := by
          unfold remove
          simp only [hge]
          rw [if_neg (show ¬ idx.generation ≠ oc.generation from fun hne => hne hgen.symm)]
          rw [← hocip] at hu1
          simp only [hu1]
          rw [← hocin] at hu2
          simp only [hu2]
        have hfin : removeFinish l idx c2 = .ok (some oc.item,
            { contents := c2.set idx.index (.Free l.next_free),
              generation := l.generation + 1,
              next_free := some idx.index,
              head :=
                match l.head with
                | some hi => if hi = idx.index then oc.next else l.head
                | none => l.head,
              tail :=
                match l.tail with
                | some ti => if ti = idx.index then oc.prev else l.tail
                | none => l.tail,
              count := l.count - 1 }) := by
          unfold removeFinish
          simp only [hc2idx]
        refine ⟨oc, A, B, _, hvh, rfl, hseq, hrem.trans hfin, ?_⟩
        have hlt2 : idx.index < c2.length := by
          rw [hlen2, hlen1]
          exact hidxlt
        have hc3len : (c2.set idx.index (.Free l.next_free)).length = l.contents.length := by
          rw [List.length_set, hlen2, hlen1]
        refine { head_eq := ?_, tail_eq := ?_, count_eq := ?_, nf_eq := rfl,
                 seq_nd := nodup_append_of_middle hnd,
                 fs_nd := List.nodup_cons.mpr ⟨hifs, hw.fs_nd⟩,
                 chain := ?_, fsc := ?_, cover := ?_, gen_le := ?_ }
        · show (match l.head with
                | some hi => if hi = idx.index then oc.next else l.head
                | none => l.head) = (A ++ B).head?
          rw [hw.head_eq, hseq]
          cases A with
          | nil => simp [hocin, nextPtr_none]
          | cons a A'' =>
            have hane : a ≠ idx.index := fun he => hiA (by rw [← he]; exact List.mem_cons_self _ _)
            simp [hane]
        · show (match l.tail with
                | some ti => if ti = idx.index then oc.prev else l.tail
                | none => l.tail) = (A ++ B).getLast?
          rw [hw.tail_eq, hseq]
          cases B with
          | nil =>
            rw [getLast?_append_right_ne_nil (List.cons_ne_nil _ _),
                List.getLast?_singleton]
            simp [hocip, lastPtr_none]
          | cons b B'' =>
            obtain ⟨t, ht⟩ := getLast?_some_of_ne_nil (List.cons_ne_nil b B'')
            rw [getLast?_append_right_ne_nil (List.cons_ne_nil _ _),
                List.getLast?_cons_cons, ht,
                getLast?_append_right_ne_nil (List.cons_ne_nil b B''), ht]
            have htne : t ≠ idx.index := fun he => hiB (by rw [← he]; exact mem_of_getLast?_eq ht)
            simp [htne]
        · show l.count - 1 = (A ++ B).length
          rw [hw.count_eq, hseq]
          simp only [List.length_append, List.length_cons]
          omega
        · refine dseg_append.mpr ⟨?_, ?_⟩
          · rw [← hocin]
            refine dseg_frame (fun j hj => ?_) hA1
            have hji : idx.index ≠ j := fun he => hiA (by rw [he]; exact hj)
            rw [getEntry_set_ne hji]
            exact hfr2 j (fun hcon => hABdisj j hj (mem_of_head?_eq hcon))
          · rw [← hocip]
            refine dseg_frame (fun j hj => ?_) hB2
            have hji : idx.index ≠ j := fun he => hiB (by rw [he]; exact hj)
            exact getEntry_set_ne hji _
        · refine ⟨?_, ?_⟩
          · rw [getEntry_set_self hlt2, hw.nf_eq]
          · refine fchain_frame (fun j hj => ?_) hw.fsc
            have hjseq : j ∉ seq := fun hm => hw.not_mem_both hm hj
            have hji : idx.index ≠ j := fun he => hifs (by rw [he]; exact hj)
            rw [getEntry_set_ne hji]
            refine (hfr2 j ?_).trans (hfr1 j ?_)
            · intro hcon
              exact hjseq (by
                rw [hseq]
                exact List.mem_append_right _
                  (List.mem_cons_of_mem _ (mem_of_head?_eq hcon)))
            · intro hcon
              exact hjseq (by
                rw [hseq]
                exact List.mem_append_left _ (mem_of_getLast?_eq hcon))
        · intro j hjlt
          rw [hc3len] at hjlt
          rcases hw.cover j hjlt with hs | hf
          · rw [hseq] at hs
            rcases List.mem_append.mp hs with hsA | hsIB
            · exact Or.inl (List.mem_append_left _ hsA)
            · rcases List.mem_cons.mp hsIB with rfl | hsB
              · exact Or.inr (List.mem_cons_self _ _)
              · exact Or.inl (List.mem_append_right _ hsB)
          · exact Or.inr (List.mem_cons_of_mem _ hf)
        · intro j oc' hj
          refine le_trans ?_ (Nat.le_succ _)
          exact genBound_set_free
            (genBound_unlinkNext_ok hu2 (genBound_unlinkPrev_ok hu1 hw.gen_le)) j oc' hj

theorem nodup_insert_middle {A B : List Nat} {i ri : Nat} (h : (A ++ i :: B).Nodup)
    (hriA : ri ∉ A) (hrii : ri ≠ i) (hriB : ri ∉ B) : (A ++ ri :: i :: B).Nodup := by
  obtain ⟨hiA, hiB, hndA, hndB, hdisj⟩ := nodup_middle_parts h
  rw [List.nodup_append]
  refine ⟨hndA, ?_, ?_⟩
  · rw [List.nodup_cons]
    refine ⟨?_, ?_⟩
    · intro hm
      rcases List.mem_cons.mp hm with he | hm'
      · exact hrii he
      · exact hriB hm'
    · rw [List.nodup_cons]
      exact ⟨hiB, hndB⟩
  · intro a ha hb
    rcases List.mem_cons.mp hb with he | hb'
    · rw [he] at ha
      exact hriA ha
    · rcases List.mem_cons.mp hb' with he | hb''
      · rw [he] at ha
        exact hiA ha
      · exact hdisj a ha hb''

theorem head?_some_of_ne_nil {xs : List Nat} (h : xs ≠ []) : ∃ a, xs.head? = some a := by
  cases xs with
  | nil => exact absurd rfl h
  | cons a t => exact ⟨a, rfl⟩

theorem nodup_insert_middle_after {A B : List Nat} {i ri : Nat} (h : (A ++ i :: B).Nodup)
    (hriA : ri ∉ A) (hrii : ri ≠ i) (hriB : ri ∉ B) : (A ++ i :: ri :: B).Nodup := by
  obtain ⟨hiA, hiB, hndA, hndB, hdisj⟩ := nodup_middle_parts h
  rw [List.nodup_append]
  refine ⟨hndA, ?_, ?_⟩
  · rw [List.nodup_cons]
    refine ⟨?_, ?_⟩
    · intro hm
      rcases List.mem_cons.mp hm with he | hm'
      · exact hrii he.symm
      · exact hiB hm'
    · rw [List.nodup_cons]
      exact ⟨hriB, hndB⟩
  · intro a ha hb
    rcases List.mem_cons.mp hb with he | hb'
    · rw [he] at ha
      exact hiA ha
    · rcases List.mem_cons.mp hb' with he | hb''
      · rw [he] at ha
        exact hriA ha
      · exact hdisj a ha hb''

/-- After a successful allocation for `insert_before` at a valid anchor
(new entry already written to slot `ri` of `c1`), the finishing splice
never panics, leaves the new slot's entry in place, and preserves
well-formedness — whether or not the anchor was the head (in which case
the call returns `none`, the mutation having been performed anyway). -/
theorem wfW_insert_before_finish {l : IndexList T} {seq fs fs' : List Nat}
    {idx : Index} {x : T} {oc0 : OccupiedEntry T} {A B : List Nat} {ri : Nat}
    {c1 : List (Entry T)} {nf : Option Nat}
    (hw : WfW l seq fs)
    (hge : getEntry l.contents idx.index = some (.Occupied oc0))
    (hseq : seq = A ++ idx.index :: B)
    (hc1ri : getEntry c1 ri = some (.Occupied ⟨x, l.generation, some idx.index, oc0.prev⟩))
    (hc1i : getEntry c1 idx.index = some (.Occupied oc0))
    (hc1other : ∀ j, ri ≠ j → j < l.contents.length →
      getEntry c1 j = getEntry l.contents j)
    (hriseq : ri ∉ seq)
    (hcovc1 : ∀ j, j < c1.length → j = ri ∨ j < l.contents.length)
    (hfsc' : fchain l.contents fs')
    (hfs'nd : fs'.Nodup)
    (hrifs' : ri ∉ fs')
    (hcover' : ∀ j, j < l.contents.length → j ∈ seq ∨ j = ri ∨ j ∈ fs')
    (hnfval : nf = nextPtr fs' none)
    (hgenc1 : ∀ j oc, getEntry c1 j = some (.Occupied oc) → oc.generation ≤ l.generation) :
    ∃ r l', insert_before_finish l idx oc0.prev ri c1 nf = .ok (r, l') ∧
      getEntry l'.contents ri =
        some (.Occupied ⟨x, l.generation, some idx.index, oc0.prev⟩) ∧
      l'.next_free = nf ∧
      WfW l' (A ++ ri :: idx.index :: B) fs' := by
  have hidxlt : idx.index < l.contents.length := getEntry_lt hge
  have hiseq : idx.index ∈ seq := hw.occ_mem_seq hge
  have hnd := hw.seq_nd
  rw [hseq] at hnd
  obtain ⟨hiA, hiB, hndA, hndB, hABdisj⟩ := nodup_middle_parts hnd
  have hch := hw.chain
  rw [hseq] at hch
  obtain ⟨hA, hIB⟩ := dseg_append.mp hch
  obtain ⟨⟨oci, hoci, hocip, hocin⟩, hB⟩ := hIB
  rw [hge] at hoci
  injection hoci with hoci
  injection hoci with hoci
  subst hoci
  have hrii : ri ≠ idx.index := fun he => hriseq (by rw [he]; exact hiseq)
  have hriA : ri ∉ A := fun hm => hriseq (by rw [hseq]; exact List.mem_append_left _ hm)
  have hriB : ri ∉ B := fun hm => hriseq (by
    rw [hseq]
    exact List.mem_append_right _ (List.mem_cons_of_mem _ hm))
  have hfs'seq : ∀ j, j ∈ fs' → j ∉ seq := by
    intro j hj hm
    obtain ⟨nf0, hnf0⟩ := fchain_mem_free hfsc' j hj
    obtain ⟨oo, hoo⟩ := hw.mem_seq_occ hm
    rw [hnf0] at hoo
    exact Entry.noConfusion (Option.some.inj hoo)
  have hc1ilt : idx.index < c1.length := getEntry_lt hc1i
  have hc2i : getEntry (c1.set idx.index (.Occupied { oc0 with prev := some ri }))
      idx.index = some (.Occupied { oc0 with prev := some ri }) :=
    getEntry_set_self hc1ilt _
  have hc2ri : getEntry (c1.set idx.index (.Occupied { oc0 with prev := some ri })) ri =
      some (.Occupied ⟨x, l.generation, some idx.index, oc0.prev⟩) := by
    rw [getEntry_set_ne (fun he => hrii he.symm)]
    exact hc1ri
  have hc2other : ∀ j, ri ≠ j → idx.index ≠ j → j < l.contents.length →
      getEntry (c1.set idx.index (.Occupied { oc0 with prev := some ri })) j =
      getEntry l.contents j := by
    intro j h1 h2 hlt
    rw [getEntry_set_ne h2]
    exact hc1other j h1 hlt
  have hc2len : (c1.set idx.index (.Occupied { oc0 with prev := some ri })).length =
      c1.length := List.length_set _ _ _
  have hmemB_lt : ∀ j, j ∈ B → j < l.contents.length := by
    intro j hj
    exact hw.mem_seq_lt (by
      rw [hseq]
      exact List.mem_append_right _ (List.mem_cons_of_mem _ hj))
  have hBframe : ∀ j, j ∈ B →
      getEntry (c1.set idx.index (.Occupied { oc0 with prev := some ri })) j =
      getEntry l.contents j := by
    intro j hj
    exact hc2other j (fun he => hriB (by rw [he]; exact hj))
      (fun he => hiB (by rw [he]; exact hj)) (hmemB_lt j hj)
  have hgenc2 : ∀ j oc,
      getEntry (c1.set idx.index (.Occupied { oc0 with prev := some ri })) j =
        some (.Occupied oc) → oc.generation ≤ l.generation :=
    genBound_set_occ hgenc1 (hgenc1 idx.index oc0 hc1i)
  have hseqnd' : (A ++ ri :: idx.index :: B).Nodup :=
    nodup_insert_middle hnd hriA hrii hriB
  have hfsframe_pre : ∀ j, j ∈ fs' → ri ≠ j ∧ idx.index ≠ j ∧ j < l.contents.length := by
    intro j hj
    refine ⟨fun he => hrifs' (by rw [he]; exact hj),
            fun he => hfs'seq j hj (by rw [← he]; exact hiseq), ?_⟩
    obtain ⟨nf0, hnf0⟩ := fchain_mem_free hfsc' j hj
    exact getEntry_lt hnf0
  cases hAl : A.getLast? with
  | none =>
    have hAnil : A = [] := getLast?_none_eq_nil hAl
    subst hAnil
    have hocipn : oc0.prev = none := by rw [hocip]; rfl
    refine ⟨none,
      { contents := c1.set idx.index (.Occupied { oc0 with prev := some ri }),
        generation := l.generation, next_free := nf,
        head := if l.head = some idx.index then some ri else l.head,
        tail := l.tail, count := l.count + 1 }, ?_, hc2ri, rfl, ?_⟩
    · unfold insert_before_finish
      simp only [hc1i, hocipn]
    refine { head_eq := ?_, tail_eq := ?_, count_eq := ?_, nf_eq := hnfval,
             seq_nd := hseqnd', fs_nd := hfs'nd, chain := ?_, fsc := ?_,
             cover := ?_, gen_le := ?_ }
    · show (if l.head = some idx.index then some ri else l.head) =
        (([] : List Nat) ++ ri :: idx.index :: B).head?
      rw [hw.head_eq, hseq]
      simp
    · show l.tail = (([] : List Nat) ++ ri :: idx.index :: B).getLast?
      rw [hw.tail_eq, hseq]
      simp only [List.nil_append]
      exact List.getLast?_cons_cons.symm
    · show l.count + 1 = (([] : List Nat) ++ ri :: idx.index :: B).length
      rw [hw.count_eq, hseq]
      simp only [List.nil_append, List.length_cons]
    · exact ⟨⟨⟨x, l.generation, some idx.index, oc0.prev⟩, hc2ri, hocipn, rfl⟩,
        ⟨{ oc0 with prev := some ri }, hc2i, rfl, hocin⟩,
        dseg_frame hBframe hB⟩
    · refine fchain_frame (fun j hj => ?_) hfsc'
      obtain ⟨h1, h2, h3⟩ := hfsframe_pre j hj
      exact hc2other j h1 h2 h3
    · intro j hjlt
      rw [hc2len] at hjlt
      rcases hcovc1 j hjlt with rfl | hlt
      · exact Or.inl (List.mem_append_right _ (List.mem_cons_self _ _))
      · rcases hcover' j hlt with hs | rfl | hf
        · rw [hseq] at hs
          rcases List.mem_append.mp hs with hsA | hsIB
          · exact Or.inl (List.mem_append_left _ hsA)
          · exact Or.inl (List.mem_append_right _ (List.mem_cons_of_mem _ hsIB))
        · exact Or.inl (List.mem_append_right _ (List.mem_cons_self _ _))
        · exact Or.inr hf
    · exact hgenc2
  | some p =>
    obtain ⟨A', rfl⟩ := getLast?_some_decomp hAl
    have hocips : oc0.prev = some p := by rw [hocip, lastPtr_concat]
    obtain ⟨hA', hPseg⟩ := dseg_append.mp hA
    obtain ⟨⟨ocp, hocp, hocpp, hocpn⟩, -⟩ := hPseg
    have hpA : p ∈ A' ++ [p] := List.mem_append_right _ (List.mem_singleton_self p)
    have hpseq : p ∈ seq := by
      rw [hseq]
      exact List.mem_append_left _ hpA
    have hrip : ri ≠ p := fun he => hriseq (by rw [he]; exact hpseq)
    have hip : idx.index ≠ p := fun he => hiA (by rw [he]; exact hpA)
    have hplt : p < l.contents.length := getEntry_lt hocp
    have hc2p : getEntry (c1.set idx.index (.Occupied { oc0 with prev := some ri })) p =
        some (.Occupied ocp) := (hc2other p hrip hip hplt).trans hocp
    have hc2plt : p < (c1.set idx.index
        (.Occupied { oc0 with prev := some ri })).length := getEntry_lt hc2p
    have hc3p : getEntry ((c1.set idx.index (.Occupied { oc0 with prev := some ri })).set p
        (.Occupied { ocp with next := some ri })) p =
        some (.Occupied { ocp with next := some ri }) := getEntry_set_self hc2plt _
    have hc3ri : getEntry ((c1.set idx.index (.Occupied { oc0 with prev := some ri })).set p
        (.Occupied { ocp with next := some ri })) ri =
        some (.Occupied ⟨x, l.generation, some idx.index, oc0.prev⟩) := by
      rw [getEntry_set_ne (fun he => hrip he.symm)]
      exact hc2ri
    have hc3i : getEntry ((c1.set idx.index (.Occupied { oc0 with prev := some ri })).set p
        (.Occupied { ocp with next := some ri })) idx.index =
        some (.Occupied { oc0 with prev := some ri }) := by
      rw [getEntry_set_ne (fun he => hip he.symm)]
      exact hc2i
    have hc3other : ∀ j, ri ≠ j → idx.index ≠ j → p ≠ j → j < l.contents.length →
        getEntry ((c1.set idx.index (.Occupied { oc0 with prev := some ri })).set p
          (.Occupied { ocp with next := some ri })) j = getEntry l.contents j := by
      intro j h1 h2 h3 hlt
      rw [getEntry_set_ne h3]
      exact hc2other j h1 h2 hlt
    refine ⟨some ⟨ri, l.generation⟩,
      { contents := (c1.set idx.index (.Occupied { oc0 with prev := some ri })).set p
          (.Occupied { ocp with next := some ri }),
        generation := l.generation, next_free := nf,
        head := if l.head = some idx.index then some ri else l.head,
        tail := l.tail, count := l.count + 1 }, ?_, hc3ri, rfl, ?_⟩
    · unfold insert_before_finish
      simp only [hc1i, hocips, hc2p]
    refine { head_eq := ?_, tail_eq := ?_, count_eq := ?_, nf_eq := hnfval,
             seq_nd := hseqnd', fs_nd := hfs'nd, chain := ?_, fsc := ?_,
             cover := ?_, gen_le := ?_ }
    · show (if l.head = some idx.index then some ri else l.head) =
        ((A' ++ [p]) ++ ri :: idx.index :: B).head?
      rw [hw.head_eq, hseq]
      have hne : A' ++ [p] ≠ [] := by simp
      obtain ⟨a0, ha0⟩ := head?_some_of_ne_nil hne
      rw [head?_append_ne_nil hne, head?_append_ne_nil hne, ha0]
      rw [if_neg (fun he => hiA (by rw [← Option.some.inj he]; exact mem_of_head?_eq ha0))]
    · show l.tail = ((A' ++ [p]) ++ ri :: idx.index :: B).getLast?
      rw [hw.tail_eq, hseq,
        getLast?_append_right_ne_nil (List.cons_ne_nil _ _),
        getLast?_append_right_ne_nil (List.cons_ne_nil _ _),
        List.getLast?_cons_cons]
    · show l.count + 1 = ((A' ++ [p]) ++ ri :: idx.index :: B).length
      rw [hw.count_eq, hseq]
      simp only [List.length_append, List.length_cons]
      omega
    · refine dseg_append.mpr ⟨dseg_append.mpr ⟨?_, ?_⟩, ?_⟩
      · refine dseg_frame (fun j hj => ?_) hA'
        have hjA : j ∈ A' ++ [p] := List.mem_append_left _ hj
        have hjseq : j ∈ seq := by
          rw [hseq]
          exact List.mem_append_left _ hjA
        refine hc3other j (fun he => hriseq (by rw [he]; exact hjseq))
          (fun he => hiA (by rw [he]; exact hjA))
          (fun he => (nodup_concat_parts hndA).1 (by rw [he]; exact hj))
          (hw.mem_seq_lt hjseq)
      · exact ⟨⟨{ ocp with next := some ri }, hc3p, hocpp, rfl⟩, trivial⟩
      · rw [lastPtr_concat]
        refine ⟨⟨⟨x, l.generation, some idx.index, oc0.prev⟩, hc3ri, hocips, rfl⟩,
          ⟨{ oc0 with prev := some ri }, hc3i, rfl, hocin⟩, ?_⟩
        refine dseg_frame (fun j hj => ?_) hB
        refine hc3other j (fun he => hriB (by rw [he]; exact hj))
          (fun he => hiB (by rw [he]; exact hj))
          (fun he => hABdisj p hpA (by rw [he]; exact hj))
          (hmemB_lt j hj)
    · refine fchain_frame (fun j hj => ?_) hfsc'
      obtain ⟨h1, h2, h3⟩ := hfsframe_pre j hj
      refine hc3other j h1 h2 (fun he => hfs'seq j hj (by rw [← he]; exact hpseq)) h3
    · intro j hjlt
      rw [List.length_set, hc2len] at hjlt
      rcases hcovc1 j hjlt with rfl | hlt
      · exact Or.inl (List.mem_append_right _ (List.mem_cons_self _ _))
      · rcases hcover' j hlt with hs | rfl | hf
        · rw [hseq] at hs
          rcases List.mem_append.mp hs with hsA | hsIB
          · exact Or.inl (List.mem_append_left _ hsA)
          · exact Or.inl (List.mem_append_right _ (List.mem_cons_of_mem _ hsIB))
        · exact Or.inl (List.mem_append_right _ (List.mem_cons_self _ _))
        · exact Or.inr hf
    · exact genBound_set_occ hgenc2 (hgenc2 p ocp hc2p)

/-- `insert_before` on a well-formed list never panics and preserves
well-formedness; an invalid anchor leaves the list untouched. -/
theorem wfW_insert_before {l : IndexList T} {seq fs : List Nat} (hw : WfW l seq fs)
    (idx : Index) (x : T) :
    (¬ validHandle l idx ∧ insert_before l idx x = .ok (none, l)) ∨
    (∃ (r : Option Index) (l' : IndexList T),
      insert_before l idx x = .ok (r, l') ∧ Wf l') := by
  cases hge : getEntry l.contents idx.index with
  | none =>
    refine Or.inl ⟨?_, ?_⟩
    · unfold validHandle
      simp only [hge]
      exact fun h => h
    · unfold insert_before
      simp only [hge]
  | some e =>
    cases e with
    | Free nf0 =>
      refine Or.inl ⟨?_, ?_⟩
      · unfold validHandle
        simp only [hge]
        exact fun h => h
      · unfold insert_before
        simp only [hge]
    | Occupied oc0 =>
      by_cases hgen : oc0.generation = idx.generation
      case neg =>
        refine Or.inl ⟨?_, ?_⟩
        · unfold validHandle
          simp only [hge]
          exact hgen
        · unfold insert_before
          simp only [hge]
          rw [if_pos (show idx.generation ≠ oc0.generation from fun he => hgen he.symm)]
      case pos =>
        right
        have hidxlt : idx.index < l.contents.length := getEntry_lt hge
        have hiseq : idx.index ∈ seq := hw.occ_mem_seq hge
        obtain ⟨A, B, hseq⟩ := List.append_of_mem hiseq
        cases fs with
        | cons ri fs' =>
          have hnf : l.next_free = some ri := hw.nf_eq
          obtain ⟨hrife, hfs'⟩ := hw.fsc
          have hrilt : ri < l.contents.length := getEntry_lt hrife
          have hriseq : ri ∉ seq := fun hm => hw.not_mem_both hm (List.mem_cons_self _ _)
          have hrii : ri ≠ idx.index := fun he => hriseq (by rw [he]; exact hiseq)
          have hfndc := hw.fs_nd
          rw [List.nodup_cons] at hfndc
          obtain ⟨r, l', heq, hri', hnf', hw'⟩ := wfW_insert_before_finish hw hge hseq
            (getEntry_set_self hrilt _)
            (by rw [getEntry_set_ne hrii]; exact hge)
            (fun j hj _ => getEntry_set_ne hj _)
            hriseq
            (fun j hj => Or.inr (by rwa [List.length_set] at hj))
            hfs' hfndc.2 hfndc.1
            (fun j hj => by
              rcases hw.cover j hj with hs | hf
              · exact Or.inl hs
              · rcases List.mem_cons.mp hf with he | hm
                · exact Or.inr (Or.inl he)
                · exact Or.inr (Or.inr hm))
            rfl
            (genBound_set_occ hw.gen_le (le_refl _))
          refine ⟨r, l', ?_, ⟨_, _, hw'⟩⟩
          unfold insert_before
          simp only [hge]
          rw [if_neg (show ¬ idx.generation ≠ oc0.generation from fun hne => hne hgen.symm)]
          simp only [hnf, hrife]
          exact heq
        | nil =>
          have hnf : l.next_free = none := hw.nf_eq
          have hlenseq : l.contents.length ∉ seq :=
            fun hm => absurd (hw.mem_seq_lt hm) (lt_irrefl _)
          have hfsnil : fchain l.contents ([] : List Nat) := trivial
          obtain ⟨r, l', heq, hri', hnf', hw'⟩ := wfW_insert_before_finish hw hge hseq
            (getEntry_append_len _ _)
            (by rw [getEntry_append_lt hidxlt]; exact hge)
            (fun j _ hlt => getEntry_append_lt hlt _)
            hlenseq
            (fun j hj => by
              rw [List.length_append, List.length_singleton] at hj
              omega)
            hfsnil List.nodup_nil (List.not_mem_nil _)
            (fun j hj => Or.inl ((hw.cover j hj).resolve_right (List.not_mem_nil j)))
            rfl
            (genBound_append_occ hw.gen_le (le_refl _))
          refine ⟨r, l', ?_, ⟨_, _, hw'⟩⟩
          unfold insert_before
          simp only [hge]
          rw [if_neg (show ¬ idx.generation ≠ oc0.generation from fun hne => hne hgen.symm)]
          simp only [hnf]
          exact heq

/-- After a successful allocation for `insert_after` at a valid anchor,
the finishing splice never panics, leaves the new slot's entry in place,
and preserves well-formedness — whether or not the anchor was the tail
(in which case the call returns `none`, the mutation having been
performed anyway). -/
theorem wfW_insert_after_finish {l : IndexList T} {seq fs fs' : List Nat}
    {idx : Index} {x : T} {oc0 : OccupiedEntry T} {A B : List Nat} {ri : Nat}
    {c1 : List (Entry T)} {nf : Option Nat}
    (hw : WfW l seq fs)
    (hge : getEntry l.contents idx.index = some (.Occupied oc0))
    (hseq : seq = A ++ idx.index :: B)
    (hc1ri : getEntry c1 ri = some (.Occupied ⟨x, l.generation, oc0.next, some idx.index⟩))
    (hc1i : getEntry c1 idx.index = some (.Occupied oc0))
    (hc1other : ∀ j, ri ≠ j → j < l.contents.length →
      getEntry c1 j = getEntry l.contents j)
    (hriseq : ri ∉ seq)
    (hcovc1 : ∀ j, j < c1.length → j = ri ∨ j < l.contents.length)
    (hfsc' : fchain l.contents fs')
    (hfs'nd : fs'.Nodup)
    (hrifs' : ri ∉ fs')
    (hcover' : ∀ j, j < l.contents.length → j ∈ seq ∨ j = ri ∨ j ∈ fs')
    (hnfval : nf = nextPtr fs' none)
    (hgenc1 : ∀ j oc, getEntry c1 j = some (.Occupied oc) → oc.generation ≤ l.generation) :
    ∃ r l', insert_after_finish l idx oc0.next ri c1 nf = .ok (r, l') ∧
      getEntry l'.contents ri =
        some (.Occupied ⟨x, l.generation, oc0.next, some idx.index⟩) ∧
      l'.next_free = nf ∧
      WfW l' (A ++ idx.index :: ri :: B) fs' := by
  have hidxlt : idx.index < l.contents.length := getEntry_lt hge
  have hiseq : idx.index ∈ seq := hw.occ_mem_seq hge
  have hnd := hw.seq_nd
  rw [hseq] at hnd
  obtain ⟨hiA, hiB, hndA, hndB, hABdisj⟩ := nodup_middle_parts hnd
  have hch := hw.chain
  rw [hseq] at hch
  obtain ⟨hA, hIB⟩ := dseg_append.mp hch
  obtain ⟨⟨oci, hoci, hocip, hocin⟩, hB⟩ := hIB
  rw [hge] at hoci
  injection hoci with hoci
  injection hoci with hoci
  subst hoci
  have hrii : ri ≠ idx.index := fun he => hriseq (by rw [he]; exact hiseq)
  have hriA : ri ∉ A := fun hm => hriseq (by rw [hseq]; exact List.mem_append_left _ hm)
  have hriB : ri ∉ B := fun hm => hriseq (by
    rw [hseq]
    exact List.mem_append_right _ (List.mem_cons_of_mem _ hm))
  have hfs'seq : ∀ j, j ∈ fs' → j ∉ seq := by
    intro j hj hm
    obtain ⟨nf0, hnf0⟩ := fchain_mem_free hfsc' j hj
    obtain ⟨oo, hoo⟩ := hw.mem_seq_occ hm
    rw [hnf0] at hoo
    exact Entry.noConfusion (Option.some.inj hoo)
  have hc1ilt : idx.index < c1.length := getEntry_lt hc1i
  have hc2i : getEntry (c1.set idx.index (.Occupied { oc0 with next := some ri }))
      idx.index = some (.Occupied { oc0 with next := some ri }) :=
    getEntry_set_self hc1ilt _
  have hc2ri : getEntry (c1.set idx.index (.Occupied { oc0 with next := some ri })) ri =
      some (.Occupied ⟨x, l.generation, oc0.next, some idx.index⟩) := by
    rw [getEntry_set_ne (fun he => hrii he.symm)]
    exact hc1ri
  have hc2other : ∀ j, ri ≠ j → idx.index ≠ j → j < l.contents.length →
      getEntry (c1.set idx.index (.Occupied { oc0 with next := some ri })) j =
      getEntry l.contents j := by
    intro j h1 h2 hlt
    rw [getEntry_set_ne h2]
    exact hc1other j h1 hlt
  have hc2len : (c1.set idx.index (.Occupied { oc0 with next := some ri })).length =
      c1.length := List.length_set _ _ _
  have hmemA_lt : ∀ j, j ∈ A → j < l.contents.length := by
    intro j hj
    exact hw.mem_seq_lt (by rw [hseq]; exact List.mem_append_left _ hj)
  have hAframe : ∀ j, j ∈ A →
      getEntry (c1.set idx.index (.Occupied { oc0 with next := some ri })) j =
      getEntry l.contents j := by
    intro j hj
    exact hc2other j (fun he => hriA (by rw [he]; exact hj))
      (fun he => hiA (by rw [he]; exact hj)) (hmemA_lt j hj)
  have hgenc2 : ∀ j oc,
      getEntry (c1.set idx.index (.Occupied { oc0 with next := some ri })) j =
        some (.Occupied oc) → oc.generation ≤ l.generation :=
    genBound_set_occ hgenc1 (hgenc1 idx.index oc0 hc1i)
  have hseqnd' : (A ++ idx.index :: ri :: B).Nodup :=
    nodup_insert_middle_after hnd hriA hrii hriB
  have hfsframe_pre : ∀ j, j ∈ fs' → ri ≠ j ∧ idx.index ≠ j ∧ j < l.contents.length := by
    intro j hj
    refine ⟨fun he => hrifs' (by rw [he]; exact hj),
            fun he => hfs'seq j hj (by rw [← he]; exact hiseq), ?_⟩
    obtain ⟨nf0, hnf0⟩ := fchain_mem_free hfsc' j hj
    exact getEntry_lt hnf0
  have hcovgoal : ∀ (cx : List (Entry T)), cx.length = c1.length →
      ∀ j, j < cx.length → j ∈ A ++ idx.index :: ri :: B ∨ j ∈ fs' := by
    intro cx hcx j hjlt
    rw [hcx] at hjlt
    rcases hcovc1 j hjlt with rfl | hlt
    · exact Or.inl (List.mem_append_right _
        (List.mem_cons_of_mem _ (List.mem_cons_self _ _)))
    · rcases hcover' j hlt with hs | rfl | hf
      · rw [hseq] at hs
        rcases List.mem_append.mp hs with hsA | hsIB
        · exact Or.inl (List.mem_append_left _ hsA)
        · rcases List.mem_cons.mp hsIB with rfl | hsB
          · exact Or.inl (List.mem_append_right _ (List.mem_cons_self _ _))
          · exact Or.inl (List.mem_append_right _
              (List.mem_cons_of_mem _ (List.mem_cons_of_mem _ hsB)))
      · exact Or.inl (List.mem_append_right _
          (List.mem_cons_of_mem _ (List.mem_cons_self _ _)))
      · exact Or.inr hf
  cases B with
  | nil =>
    have hocnn : oc0.next = none := by rw [hocin]; rfl
    refine ⟨none,
      { contents := c1.set idx.index (.Occupied { oc0 with next := some ri }),
        generation := l.generation, next_free := nf,
        head := l.head,
        tail := if l.tail = some idx.index then some ri else l.tail,
        count := l.count + 1 }, ?_, hc2ri, rfl, ?_⟩
    · unfold insert_after_finish
      simp only [hc1i, hocnn]
    refine { head_eq := ?_, tail_eq := ?_, count_eq := ?_, nf_eq := hnfval,
             seq_nd := hseqnd', fs_nd := hfs'nd, chain := ?_, fsc := ?_,
             cover := ?_, gen_le := ?_ }
    · show l.head = (A ++ idx.index :: ri :: ([] : List Nat)).head?
      rw [hw.head_eq, hseq]
      cases A with
      | nil => simp
      | cons a A'' => simp
    · show (if l.tail = some idx.index then some ri else l.tail) =
        (A ++ idx.index :: ri :: ([] : List Nat)).getLast?
      rw [hw.tail_eq, hseq,
          getLast?_append_right_ne_nil (List.cons_ne_nil _ _),
          getLast?_append_right_ne_nil (List.cons_ne_nil _ _)]
      simp
    · show l.count + 1 = (A ++ idx.index :: ri :: ([] : List Nat)).length
      rw [hw.count_eq, hseq]
      simp only [List.length_append, List.length_cons]
      omega
    · refine dseg_append.mpr ⟨dseg_frame hAframe hA, ?_⟩
      exact ⟨⟨{ oc0 with next := some ri }, hc2i, hocip, rfl⟩,
        ⟨⟨x, l.generation, oc0.next, some idx.index⟩, hc2ri, rfl, hocnn⟩, trivial⟩
    · refine fchain_frame (fun j hj => ?_) hfsc'
      obtain ⟨h1, h2, h3⟩ := hfsframe_pre j hj
      exact hc2other j h1 h2 h3
    · exact hcovgoal _ hc2len
    · exact hgenc2
  | cons n B' =>
    obtain ⟨⟨ocn, hocn, hocnp, hocnn⟩, hB'⟩ := hB
    have hocns : oc0.next = some n := by rw [hocin]; rfl
    have hnB' : n ∉ B' := (List.nodup_cons.mp hndB).1
    have hnseq : n ∈ seq := by
      rw [hseq]
      exact List.mem_append_right _ (List.mem_cons_of_mem _ (List.mem_cons_self _ _))
    have hrin : ri ≠ n := fun he => hriseq (by rw [he]; exact hnseq)
    have hin : idx.index ≠ n := fun he => hiB (by rw [he]; exact List.mem_cons_self _ _)
    have hnlt : n < l.contents.length := getEntry_lt hocn
    have hc2n : getEntry (c1.set idx.index (.Occupied { oc0 with next := some ri })) n =
        some (.Occupied ocn) := (hc2other n hrin hin hnlt).trans hocn
    have hc2nlt : n < (c1.set idx.index
        (.Occupied { oc0 with next := some ri })).length := getEntry_lt hc2n
    have hc3n : getEntry ((c1.set idx.index (.Occupied { oc0 with next := some ri })).set n
        (.Occupied { ocn with prev := some ri })) n =
        some (.Occupied { ocn with prev := some ri }) := getEntry_set_self hc2nlt _
    have hc3ri : getEntry ((c1.set idx.index (.Occupied { oc0 with next := some ri })).set n
        (.Occupied { ocn with prev := some ri })) ri =
        some (.Occupied ⟨x, l.generation, oc0.next, some idx.index⟩) := by
      rw [getEntry_set_ne (fun he => hrin he.symm)]
      exact hc2ri
    have hc3i : getEntry ((c1.set idx.index (.Occupied { oc0 with next := some ri })).set n
        (.Occupied { ocn with prev := some ri })) idx.index =
        some (.Occupied { oc0 with next := some ri }) := by
      rw [getEntry_set_ne (fun he => hin he.symm)]
      exact hc2i
    have hc3other : ∀ j, ri ≠ j → idx.index ≠ j → n ≠ j → j < l.contents.length →
        getEntry ((c1.set idx.index (.Occupied { oc0 with next := some ri })).set n
          (.Occupied { ocn with prev := some ri })) j = getEntry l.contents j := by
      intro j h1 h2 h3 hlt
      rw [getEntry_set_ne h3]
      exact hc2other j h1 h2 hlt
    refine ⟨some ⟨ri, l.generation⟩,
      { contents := (c1.set idx.index (.Occupied { oc0 with next := some ri })).set n
          (.Occupied { ocn with prev := some ri }),
        generation := l.generation, next_free := nf,
        head := l.head,
        tail := if l.tail = some idx.index then some ri else l.tail,
        count := l.count + 1 }, ?_, hc3ri, rfl, ?_⟩
    · unfold insert_after_finish
      simp only [hc1i, hocns, hc2n]
    refine { head_eq := ?_, tail_eq := ?_, count_eq := ?_, nf_eq := hnfval,
             seq_nd := hseqnd', fs_nd := hfs'nd, chain := ?_, fsc := ?_,
             cover := ?_, gen_le := ?_ }
    · show l.head = (A ++ idx.index :: ri :: n :: B').head?
      rw [hw.head_eq, hseq]
      cases A with
      | nil => simp
      | cons a A'' => simp
    · show (if l.tail = some idx.index then some ri else l.tail) =
        (A ++ idx.index :: ri :: n :: B').getLast?
      obtain ⟨t, ht⟩ := getLast?_some_of_ne_nil (List.cons_ne_nil n B')
      rw [hw.tail_eq, hseq,
          getLast?_append_right_ne_nil (List.cons_ne_nil _ _),
          getLast?_append_right_ne_nil (List.cons_ne_nil _ _)]
      simp only [List.getLast?_cons_cons, ht]
      have htm : t ∈ n :: B' := mem_of_getLast?_eq ht
      rw [if_neg (fun he => hiB (by rw [← Option.some.inj he]; exact htm))]
    · show l.count + 1 = (A ++ idx.index :: ri :: n :: B').length
      rw [hw.count_eq, hseq]
      simp only [List.length_append, List.length_cons]
      omega
    · refine dseg_append.mpr ⟨?_, ?_⟩
      · refine dseg_frame (fun j hj => ?_) hA
        refine hc3other j (fun he => hriA (by rw [he]; exact hj))
          (fun he => hiA (by rw [he]; exact hj))
          (fun he => hABdisj j hj (by rw [← he]; exact List.mem_cons_self _ _))
          (hmemA_lt j hj)
      · refine ⟨⟨{ oc0 with next := some ri }, hc3i, hocip, rfl⟩,
          ⟨⟨x, l.generation, oc0.next, some idx.index⟩, hc3ri, rfl, hocns⟩,
          ⟨{ ocn with prev := some ri }, hc3n, rfl, hocnn⟩, ?_⟩
        refine dseg_frame (fun j hj => ?_) hB'
        refine hc3other j (fun he => hriB (by rw [he]; exact List.mem_cons_of_mem _ hj))
          (fun he => hiB (by rw [he]; exact List.mem_cons_of_mem _ hj))
          (fun he => hnB' (by rw [he]; exact hj))
          (hw.mem_seq_lt (by
            rw [hseq]
            exact List.mem_append_right _
              (List.mem_cons_of_mem _ (List.mem_cons_of_mem _ hj))))
    · refine fchain_frame (fun j hj => ?_) hfsc'
      obtain ⟨h1, h2, h3⟩ := hfsframe_pre j hj
      refine hc3other j h1 h2 (fun he => hfs'seq j hj (by rw [← he]; exact hnseq)) h3
    · exact hcovgoal _ (by rw [List.length_set, hc2len])
    · exact genBound_set_occ hgenc2 (hgenc2 n ocn hc2n)

/-- `insert_after` on a well-formed list never panics and preserves
well-formedness; an invalid anchor leaves the list untouched. -/
theorem wfW_insert_after {l : IndexList T} {seq fs : List Nat} (hw : WfW l seq fs)
    (idx : Index) (x : T) :
    (¬ validHandle l idx ∧ insert_after l idx x = .ok (none, l)) ∨
    (∃ (r : Option Index) (l' : IndexList T),
      insert_after l idx x = .ok (r, l') ∧ Wf l') := by
  cases hge : getEntry l.contents idx.index with
  | none =>
    refine Or.inl ⟨?_, ?_⟩
    · unfold validHandle
      simp only [hge]
      exact fun h => h
    · unfold insert_after
      simp only [hge]
  | some e =>
    cases e with
    | Free nf0 =>
      refine Or.inl ⟨?_, ?_⟩
      · unfold validHandle
        simp only [hge]
        exact fun h => h
      · unfold insert_after
        simp only [hge]
    | Occupied oc0 =>
      by_cases hgen : oc0.generation = idx.generation
      case neg =>
        refine Or.inl ⟨?_, ?_⟩
        · unfold validHandle
          simp only [hge]
          exact hgen
        · unfold insert_after
          simp only [hge]
          rw [if_pos (show idx.generation ≠ oc0.generation from fun he => hgen he.symm)]
      case pos =>
        right
        have hidxlt : idx.index < l.contents.length := getEntry_lt hge
        have hiseq : idx.index ∈ seq := hw.occ_mem_seq hge
        obtain ⟨A, B, hseq⟩ := List.append_of_mem hiseq
        cases fs with
        | cons ri fs' =>
          have hnf : l.next_free = some ri := hw.nf_eq
          obtain ⟨hrife, hfs'⟩ := hw.fsc
          have hrilt : ri < l.contents.length := getEntry_lt hrife
          have hriseq : ri ∉ seq := fun hm => hw.not_mem_both hm (List.mem_cons_self _ _)
          have hrii : ri ≠ idx.index := fun he => hriseq (by rw [he]; exact hiseq)
          have hfndc := hw.fs_nd
          rw [List.nodup_cons] at hfndc
          obtain ⟨r, l', heq, hri', hnf', hw'⟩ := wfW_insert_after_finish hw hge hseq
            (getEntry_set_self hrilt _)
            (by rw [getEntry_set_ne hrii]; exact hge)
            (fun j hj _ => getEntry_set_ne hj _)
            hriseq
            (fun j hj => Or.inr (by rwa [List.length_set] at hj))
            hfs' hfndc.2 hfndc.1
            (fun j hj => by
              rcases hw.cover j hj with hs | hf
              · exact Or.inl hs
              · rcases List.mem_cons.mp hf with he | hm
                · exact Or.inr (Or.inl he)
                · exact Or.inr (Or.inr hm))
            rfl
            (genBound_set_occ hw.gen_le (le_refl _))
          refine ⟨r, l', ?_, ⟨_, _, hw'⟩⟩
          unfold insert_after
          simp only [hge]
          rw [if_neg (show ¬ idx.generation ≠ oc0.generation from fun hne => hne hgen.symm)]
          simp only [hnf, hrife]
          exact heq
        | nil =>
          have hnf : l.next_free = none := hw.nf_eq
          have hlenseq : l.contents.length ∉ seq :=
            fun hm => absurd (hw.mem_seq_lt hm) (lt_irrefl _)
          have hfsnil : fchain l.contents ([] : List Nat) := trivial
          obtain ⟨r, l', heq, hri', hnf', hw'⟩ := wfW_insert_after_finish hw hge hseq
            (getEntry_append_len _ _)
            (by rw [getEntry_append_lt hidxlt]; exact hge)
            (fun j _ hlt => getEntry_append_lt hlt _)
            hlenseq
            (fun j hj => by
              rw [List.length_append, List.length_singleton] at hj
              omega)
            hfsnil List.nodup_nil (List.not_mem_nil _)
            (fun j hj => Or.inl ((hw.cover j hj).resolve_right (List.not_mem_nil j)))
            rfl
            (genBound_append_occ hw.gen_le (le_refl _))
          refine ⟨r, l', ?_, ⟨_, _, hw'⟩⟩
          unfold insert_after
          simp only [hge]
          rw [if_neg (show ¬ idx.generation ≠ oc0.generation from fun hne => hne hgen.symm)]
          simp only [hnf]
          exact heq

theorem wfW_listNew (T : Type) : WfW (listNew T) [] [] := by
  refine { head_eq := rfl, tail_eq := rfl, count_eq := rfl, nf_eq := rfl,
           seq_nd := List.nodup_nil, fs_nd := List.nodup_nil,
           chain := trivial, fsc := trivial, cover := ?_, gen_le := ?_ }
  · intro j hj
    simp [listNew] at hj
  · intro j oc h
    simp [listNew, getEntry] at h

/-- `pop_front` on a well-formed list never panics and preserves
well-formedness. -/
theorem wfW_pop_front {l : IndexList T} {seq fs : List Nat} (hw : WfW l seq fs) :
    ∃ r l', pop_front l = .ok (r, l') ∧ Wf l' := by
  cases hh : l.head with
  | none =>
    refine ⟨none, l, ?_, ⟨seq, fs, hw⟩⟩
    unfold pop_front
    simp only [hh]
  | some h =>
    have hmem : h ∈ seq := mem_of_head?_eq (by rw [← hw.head_eq]; exact hh)
    obtain ⟨oc, hoc⟩ := hw.mem_seq_occ hmem
    have hpf : pop_front l = remove l ⟨h, oc.generation⟩ := by
      unfold pop_front
      simp only [hh, hoc]
    rcases wfW_remove hw ⟨h, oc.generation⟩ with ⟨-, hre⟩ |
      ⟨oc', A, B, l', -, -, -, hre, hw'⟩
    · exact ⟨none, l, hpf.trans hre, ⟨seq, fs, hw⟩⟩
    · exact ⟨some oc'.item, l', hpf.trans hre, ⟨_, _, hw'⟩⟩

/-- Every state reachable by the public mutating operations is well
formed — this is the master invariant behind claims C6, C7 and C9. -/
theorem reachable_wf {T : Type} {l : IndexList T} (hr : Reachable l) : Wf l := by
  induction hr with
  | base => exact ⟨[], [], wfW_listNew T⟩
  | @push_back_step l x h l' hr hp ih =>
    obtain ⟨seq, fs, hw⟩ := ih
    obtain ⟨i, l0, heq, hw'⟩ := wfW_push_back hw x
    rw [heq] at hp
    injection hp with hp
    injection hp with h1 h2
    rw [← h2]
    exact ⟨_, _, hw'⟩
  | @push_front_step l x h l' hr hp ih =>
    obtain ⟨seq, fs, hw⟩ := ih
    obtain ⟨i, l0, heq, hw'⟩ := wfW_push_front hw x
    rw [heq] at hp
    injection hp with hp
    injection hp with h1 h2
    rw [← h2]
    exact ⟨_, _, hw'⟩
  | @pop_front_step l r l' hr hp ih =>
    obtain ⟨seq, fs, hw⟩ := ih
    obtain ⟨r0, l0, heq, hwf⟩ := wfW_pop_front hw
    rw [heq] at hp
    injection hp with hp
    injection hp with h1 h2
    rw [← h2]
    exact hwf
  | @remove_step l idx r l' hr hp ih =>
    obtain ⟨seq, fs, hw⟩ := ih
    rcases wfW_remove hw idx with ⟨-, hre⟩ | ⟨oc, A, B, l0, -, -, -, hre, hw'⟩
    · rw [hre] at hp
      injection hp with hp
      injection hp with h1 h2
      rw [← h2]
      exact ⟨_, _, hw⟩
    · rw [hre] at hp
      injection hp with hp
      injection hp with h1 h2
      rw [← h2]
      exact ⟨_, _, hw'⟩
  | @insert_before_step l idx x r l' hr hp ih =>
    obtain ⟨seq, fs, hw⟩ := ih
    rcases wfW_insert_before hw idx x with ⟨-, hre⟩ | ⟨r0, l0, hre, hwf⟩
    · rw [hre] at hp
      injection hp with hp
      injection hp with h1 h2
      rw [← h2]
      exact ⟨_, _, hw⟩
    · rw [hre] at hp
      injection hp with hp
      injection hp with h1 h2
      rw [← h2]
      exact hwf
  | @insert_after_step l idx x r l' hr hp ih =>
    obtain ⟨seq, fs, hw⟩ := ih
    rcases wfW_insert_after hw idx x with ⟨-, hre⟩ | ⟨r0, l0, hre, hwf⟩
    · rw [hre] at hp
      injection hp with hp
      injection hp with h1 h2
      rw [← h2]
      exact ⟨_, _, hw⟩
    · rw [hre] at hp
      injection hp with hp
      injection hp with h1 h2
      rw [← h2]
      exact hwf

/-- C10: immediately after `push_back v` returns handle `h`, `get h`
yields `v`, `len` has grown by one, `tail_index` equals `h`, and the
generation counter is unchanged. -/
theorem C10_push_back_postconditions {T : Type} {l : IndexList T} {v : T} {h : Index}
    {l' : IndexList T} (hp : push_back l v = .ok (h, l')) :
    get l' h = .ok (some v) ∧ len l' = len l + 1 ∧ tail_index l' = some h ∧
    l'.generation = l.generation := by
  cases hnf : l.next_free with
  | some i =>
    cases hge : getEntry l.contents i with
    | none =>
      unfold push_back at hp
      simp only [hnf, hge] at hp
      exact PRes.noConfusion hp
    | some e =>
      cases e with
      | Occupied oc =>
        unfold push_back at hp
        simp only [hnf, hge] at hp
        exact PRes.noConfusion hp
      | Free nf =>
        rw [push_back_free_eq hnf hge v] at hp
        injection hp with hp
        injection hp with hidx hl
        subst hidx
        subst hl
        have hin : i < l.contents.length := getEntry_lt hge
        have hnew : getEntry (l.contents.set i
            (.Occupied ⟨v, l.generation, none, l.tail⟩)) i =
            some (.Occupied ⟨v, l.generation, none, l.tail⟩) := getEntry_set_self hin _
        obtain ⟨nx, hfx⟩ := getEntry_fixNextLink_occ hnew l.tail i
        refine ⟨?_, rfl, ?_, rfl⟩
        · unfold get
          simp only [hfx]
          simp
        · unfold tail_index
          simp only [hfx]
  | none =>
    rw [push_back_append_eq hnf v] at hp
    injection hp with hp
    injection hp with hidx hl
    subst hidx
    subst hl
    have hnew : getEntry (l.contents ++ [.Occupied ⟨v, l.generation, none, l.tail⟩])
        l.contents.length = some (.Occupied ⟨v, l.generation, none, l.tail⟩) :=
      getEntry_append_len _ _
    obtain ⟨nx, hfx⟩ := getEntry_fixNextLink_occ hnew l.tail l.contents.length
    refine ⟨?_, rfl, ?_, rfl⟩
    · unfold get
      simp only [hfx]
      simp
    · unfold tail_index
      simp only [hfx]

/-- Witness for C10 at a concrete input: `push_back 5` on the empty
list. -/
theorem C10_push_back_postconditions_witness :
    get exA1 ⟨0, 0⟩ = .ok (some 5) ∧ len exA1 = len (listNew Nat) + 1 ∧
    tail_index exA1 = some ⟨0, 0⟩ ∧ exA1.generation = (listNew Nat).generation :=
  @C10_push_back_postconditions Nat (listNew Nat) 5 ⟨0, 0⟩ exA1 (by decide)

/-- C1: the claim states that `get`/`get_mut` on any handle — including a
stale handle whose slot is currently `Free` — return the element when the
handle is valid and `none` otherwise, and never abort.  The code instead
hits its `panic!("Corrupted list")` branch on a `Free` slot: after
`push_back 5` returns handle `⟨0,0⟩` and `remove ⟨0,0⟩` frees the slot,
both `get ⟨0,0⟩` and `get_mut ⟨0,0⟩` evaluate to the panic, not to
`none`. -/
theorem C1_get_panics_on_stale_handle_of_free_slot :
    push_back (listNew Nat) 5 = .ok (⟨0, 0⟩, exA1) ∧
    remove exA1 ⟨0, 0⟩ = .ok (some 5, exC1) ∧
    get exC1 ⟨0, 0⟩ = .panic ∧
    get_mut exC1 ⟨0, 0⟩ = .panic := by decide

/-- C2: the claim states that `next_index`/`prev_index` return a handle
carrying the *neighbour's* stored generation.  The code stamps the
*anchor's* generation instead (`Index::new(oc.next?, oc.generation)`).
On the reachable state `exA4` (live elements `5` at slot 0 with
generation 0 and `20` at slot 1 with generation 1), `next_index ⟨0,0⟩`
returns `⟨1,0⟩` although slot 1 stores generation 1 — so `get` on the
returned handle misses the live neighbour; symmetrically for
`prev_index ⟨1,1⟩`. -/
theorem C2_next_index_stamps_anchor_generation :
    push_back (listNew Nat) 5 = .ok (⟨0, 0⟩, exA1) ∧
    push_back exA1 10 = .ok (⟨1, 0⟩, exA2) ∧
    remove exA2 ⟨1, 0⟩ = .ok (some 10, exA3) ∧
    push_back exA3 20 = .ok (⟨1, 1⟩, exA4) ∧
    getEntry exA4.contents 1 = some (.Occupied ⟨20, 1, none, some 0⟩) ∧
    next_index exA4 ⟨0, 0⟩ = some ⟨1, 0⟩ ∧
    get exA4 ⟨1, 0⟩ = .ok none ∧
    getEntry exA4.contents 0 = some (.Occupied ⟨5, 0, some 1, none⟩) ∧
    prev_index exA4 ⟨1, 1⟩ = some ⟨0, 1⟩ ∧
    get exA4 ⟨0, 1⟩ = .ok none := by decide

/-- C3: the claim states that `insert_before`/`insert_after` return the
new handle whenever the anchor is valid (head and tail included) and that
a `none` return implies no mutation.  The code's final
`self.contents.get_mut(oc_prev?)?` returns `None` when the valid anchor
is the head (symmetrically `oc_next?` at the tail) *after* the insertion
has fully taken place: on the one-element list `exB1` with valid handle
`⟨0,0⟩`, both calls return `none` while the count grows from 1 to 2. -/
theorem C3_insert_adjacent_to_boundary_returns_none_after_mutating :
    push_front (listNew Nat) 2 = .ok (⟨0, 0⟩, exB1) ∧
    validHandle exB1 ⟨0, 0⟩ ∧
    insert_before exB1 ⟨0, 0⟩ 0 = .ok (none, exB2) ∧
    exB2.count = 2 ∧ exB1.count = 1 ∧
    insert_after exB1 ⟨0, 0⟩ 7 = .ok (none, exB2a) ∧
    exB2a.count = 2 := by
  refine ⟨by decide, ?_, by decide, by decide, by decide, by decide, by decide⟩
  show (0 : Nat) = 0
  rfl

/-- C4: the claim states that the read iterator always yields exactly
`count` elements in sequence order.  Because `next_index` stamps the
anchor's generation (see C2), on the reachable state `exA4` — obtained by
`push_back 5; push_back 10; remove; push_back 20`, whose two live
elements carry generations 0 and 1 — the iterator yields only `[5]`
although `count = 2`: the second `Iter::next` call `get`s slot 1 with the
stale generation 0 and terminates early, skipping the live element
`20`. -/
theorem C4_iterator_skips_live_element_with_newer_generation :
    push_back (listNew Nat) 5 = .ok (⟨0, 0⟩, exA1) ∧
    push_back exA1 10 = .ok (⟨1, 0⟩, exA2) ∧
    remove exA2 ⟨1, 0⟩ = .ok (some 10, exA3) ∧
    push_back exA3 20 = .ok (⟨1, 1⟩, exA4) ∧
    exA4.count = 2 ∧
    iterToList exA4 = .ok [5] := by decide

/-- C5: the claim states that `contains v` is true iff `index_of v`
returns a match, in particular on lists whose live elements carry
different generation stamps.  On the reachable state `exA4`, `index_of`
(which follows the raw `next` links) finds `20` at slot 1, while
`contains` (which runs the iterator of C4) stops early and reports
`false`. -/
theorem C5_contains_and_index_of_disagree :
    push_back (listNew Nat) 5 = .ok (⟨0, 0⟩, exA1) ∧
    push_back exA1 10 = .ok (⟨1, 0⟩, exA2) ∧
    remove exA2 ⟨1, 0⟩ = .ok (some 10, exA3) ∧
    push_back exA3 20 = .ok (⟨1, 1⟩, exA4) ∧
    index_of exA4 20 = .ok (some ⟨1, 1⟩) ∧
    contains exA4 20 = .ok false := by decide

/-! Counting `Occupied` slots, and consequences of well-formedness used
by the remaining claims. -/

/-- A valid handle names an `Occupied` slot carrying the handle's
generation. -/
theorem validHandle_elim {T : Type} {l : IndexList T} {idx : Index}
    (h : validHandle l idx) :
    ∃ oc : OccupiedEntry T, getEntry l.contents idx.index = some (.Occupied oc) ∧
      oc.generation = idx.generation := by
  unfold validHandle at h
  cases hge : getEntry l.contents idx.index with
  | none => simp only [hge] at h
  | some e =>
    cases e with
    | Free nf => simp only [hge] at h
    | Occupied oc =>
      simp only [hge] at h
      exact ⟨oc, rfl, h⟩

/-- The number of `Occupied` entries of an array equals the number of
in-range positions holding an `Occupied` entry. -/
theorem filter_occ_length_eq_range {T : Type} (c : List (Entry T)) :
    (c.filter isOccB).length = ((List.range c.length).filter
      (fun j => ((getEntry c j).map isOccB).getD false)).length := by
  induction c with
  | nil => rfl
  | cons a t ih =>
    have hcomp : ((fun j => ((getEntry (a :: t) j).map isOccB).getD false) ∘ Nat.succ)
        = fun j => ((getEntry t j).map isOccB).getD false := by
      funext j
      rfl
    have hq0 : ((getEntry (a :: t) 0).map isOccB).getD false = isOccB a := rfl
    simp only [List.length_cons, List.range_succ_eq_map, List.filter_cons]
    rw [List.filter_map Nat.succ (List.range t.length), hcomp, hq0]
    cases ha : isOccB a <;> simp [ih]

/-- Under well-formedness, `occCount` equals the length of the sequence
witness: every `Occupied` slot is a chain member and conversely. -/
theorem WfW.occCount_eq {T : Type} {l : IndexList T} {seq fs : List Nat}
    (hw : WfW l seq fs) : occCount l = seq.length := by
  have h1 := filter_occ_length_eq_range l.contents
  have hnd1 : ((List.range l.contents.length).filter
      (fun j => ((getEntry l.contents j).map isOccB).getD false)).Nodup :=
    (List.nodup_range l.contents.length).filter _
  have hmem : ∀ i : Nat, (i ∈ (List.range l.contents.length).filter
      (fun j => ((getEntry l.contents j).map isOccB).getD false)) ↔ i ∈ seq := by
    intro i
    rw [List.mem_filter, List.mem_range]
    constructor
    · rintro ⟨hlt, hocc⟩
      cases hge : getEntry l.contents i with
      | none => simp [hge] at hocc
      | some e =>
        cases e with
        | Free nf => simp [hge, isOccB] at hocc
        | Occupied oc => exact hw.occ_mem_seq hge
    · intro hs
      obtain ⟨oc, hoc⟩ := hw.mem_seq_occ hs
      refine ⟨getEntry_lt hoc, ?_⟩
      simp [hoc, isOccB]
  unfold occCount
  rw [h1, ← List.toFinset_card_of_nodup hnd1, ← List.toFinset_card_of_nodup hw.seq_nd]
  congr 1
  ext a
  rw [List.mem_toFinset, List.mem_toFinset]
  exact hmem a

/-- `insert_before_finish` on a state whose anchor slot and freshly
allocated slot `ri` are both `Occupied` always succeeds (with some —
possibly `none` — returned handle), hands the stored free link `nf` to
the new state, and leaves at `ri` an `Occupied` entry with the allocated
item and generation. -/
theorem insert_before_finish_nf_entry {T : Type} {l : IndexList T} {idx : Index}
    (ocp : Option Nat) {ri : Nat} {c1 : List (Entry T)} (nf : Option Nat)
    {oc1 ocr : OccupiedEntry T}
    (hanch : getEntry c1 idx.index = some (.Occupied oc1))
    (hri : getEntry c1 ri = some (.Occupied ocr)) (hne : idx.index ≠ ri) :
    ∃ (r : Option Index) (l' : IndexList T),
      insert_before_finish l idx ocp ri c1 nf = .ok (r, l') ∧
      l'.next_free = nf ∧
      ∃ oc : OccupiedEntry T, getEntry l'.contents ri = some (.Occupied oc) ∧
        oc.item = ocr.item ∧ oc.generation = ocr.generation := by
  unfold insert_before_finish
  simp only [hanch]
  have hc2ri : getEntry (c1.set idx.index (.Occupied { oc1 with prev := some ri })) ri =
      some (.Occupied ocr) := by
    rw [getEntry_set_ne hne]
    exact hri
  cases ocp with
  | none => exact ⟨none, _, rfl, rfl, ocr, hc2ri, rfl, rfl⟩
  | some p =>
    dsimp only
    cases hp : getEntry (c1.set idx.index (.Occupied { oc1 with prev := some ri })) p with
    | none => exact ⟨none, _, rfl, rfl, ocr, hc2ri, rfl, rfl⟩
    | some e =>
      cases e with
      | Free nf2 => exact ⟨none, _, rfl, rfl, ocr, hc2ri, rfl, rfl⟩
      | Occupied ocP =>
        by_cases hpr : p = ri
        · subst hpr
          rw [hc2ri] at hp
          injection hp with hp
          injection hp with hp
          subst hp
          have hlt2 : p < (c1.set idx.index (.Occupied { oc1 with prev := some p })).length :=
            getEntry_lt hc2ri
          have hfin : getEntry ((c1.set idx.index (.Occupied { oc1 with prev := some p })).set p
              (.Occupied { ocr with next := some p })) p =
              some (.Occupied ⟨ocr.item, ocr.generation, some p, ocr.prev⟩) :=
            getEntry_set_self hlt2 _
          exact ⟨some ⟨p, l.generation⟩, _, rfl, rfl,
            ⟨ocr.item, ocr.generation, some p, ocr.prev⟩, hfin, rfl, rfl⟩
        · have hfin : getEntry ((c1.set idx.index (.Occupied { oc1 with prev := some ri })).set p
              (.Occupied { ocP with next := some ri })) ri =
              some (.Occupied ocr) := by
            rw [getEntry_set_ne hpr]
            exact hc2ri
          exact ⟨some ⟨ri, l.generation⟩, _, rfl, rfl, ocr, hfin, rfl, rfl⟩

/-- `insert_after_finish`: mirror image of
`insert_before_finish_nf_entry`. -/
theorem insert_after_finish_nf_entry {T : Type} {l : IndexList T} {idx : Index}
    (ocn : Option Nat) {ri : Nat} {c1 : List (Entry T)} (nf : Option Nat)
    {oc1 ocr : OccupiedEntry T}
    (hanch : getEntry c1 idx.index = some (.Occupied oc1))
    (hri : getEntry c1 ri = some (.Occupied ocr)) (hne : idx.index ≠ ri) :
    ∃ (r : Option Index) (l' : IndexList T),
      insert_after_finish l idx ocn ri c1 nf = .ok (r, l') ∧
      l'.next_free = nf ∧
      ∃ oc : OccupiedEntry T, getEntry l'.contents ri = some (.Occupied oc) ∧
        oc.item = ocr.item ∧ oc.generation = ocr.generation := by
  unfold insert_after_finish
  simp only [hanch]
  have hc2ri : getEntry (c1.set idx.index (.Occupied { oc1 with next := some ri })) ri =
      some (.Occupied ocr) := by
    rw [getEntry_set_ne hne]
    exact hri
  cases ocn with
  | none => exact ⟨none, _, rfl, rfl, ocr, hc2ri, rfl, rfl⟩
  | some n =>
    dsimp only
    cases hp : getEntry (c1.set idx.index (.Occupied { oc1 with next := some ri })) n with
    | none => exact ⟨none, _, rfl, rfl, ocr, hc2ri, rfl, rfl⟩
    | some e =>
      cases e with
      | Free nf2 => exact ⟨none, _, rfl, rfl, ocr, hc2ri, rfl, rfl⟩
      | Occupied ocN =>
        by_cases hpr : n = ri
        · subst hpr
          rw [hc2ri] at hp
          injection hp with hp
          injection hp with hp
          subst hp
          have hlt2 : n < (c1.set idx.index (.Occupied { oc1 with next := some n })).length :=
            getEntry_lt hc2ri
          have hfin : getEntry ((c1.set idx.index (.Occupied { oc1 with next := some n })).set n
              (.Occupied { ocr with prev := some n })) n =
              some (.Occupied ⟨ocr.item, ocr.generation, ocr.next, some n⟩) :=
            getEntry_set_self hlt2 _
          exact ⟨some ⟨n, l.generation⟩, _, rfl, rfl,
            ⟨ocr.item, ocr.generation, ocr.next, some n⟩, hfin, rfl, rfl⟩
        · have hfin : getEntry ((c1.set idx.index (.Occupied { oc1 with next := some ri })).set n
              (.Occupied { ocN with prev := some ri })) ri =
              some (.Occupied ocr) := by
            rw [getEntry_set_ne hpr]
            exact hc2ri
          exact ⟨some ⟨ri, l.generation⟩, _, rfl, rfl, ocr, hfin, rfl, rfl⟩

/-- C6: on a reachable list, a successful `remove` bumps the generation
counter exactly once, and the insertion that reuses the freed slot (the
next `push_back` — see C8 — allocates exactly there) issues a handle
whose generation is strictly greater than the removed handle's; the old
handle then fails validation in `get` (and `get_mut`), `next_index`,
`prev_index` and `remove` against the new state: each returns `none`,
and `remove` performs no mutation. -/
theorem C6_generation_bump_invalidates_stale_handle {T : Type} {l : IndexList T}
    (hr : Reachable l) {idx : Index} {v : T} {l' : IndexList T}
    (hrem : remove l idx = .ok (some v, l')) (x : T) :
    l'.generation = l.generation + 1 ∧
    idx.generation < l'.generation ∧
    ∃ l'' : IndexList T,
      push_back l' x = .ok (⟨idx.index, l'.generation⟩, l'') ∧
      get l'' idx = .ok none ∧
      get_mut l'' idx = .ok none ∧
      next_index l'' idx = none ∧
      prev_index l'' idx = none ∧
      remove l'' idx = .ok (none, l'') := by
  obtain ⟨oc, hoc, hocgen, hnf', hgen', hcnt', hfree', hlen'⟩ := remove_ok_some hrem
  obtain ⟨seq, fs, hw⟩ := reachable_wf hr
  have hgle : oc.generation ≤ l.generation := hw.gen_le idx.index oc hoc
  have hlt : idx.generation < l'.generation := by
    rw [hgen', ← hocgen]
    omega
  have hne : l'.generation ≠ idx.generation := (Nat.ne_of_lt hlt).symm
  have hne' : idx.generation ≠ l'.generation := Nat.ne_of_lt hlt
  have hpb := push_back_free_eq hnf' hfree' x
  have hin : idx.index < l'.contents.length := getEntry_lt hfree'
  have hset : getEntry (l'.contents.set idx.index
      (.Occupied ⟨x, l'.generation, none, l'.tail⟩)) idx.index =
      some (.Occupied ⟨x, l'.generation, none, l'.tail⟩) := getEntry_set_self hin _
  obtain ⟨nx, hfx⟩ := getEntry_fixNextLink_occ hset l'.tail idx.index
  refine ⟨hgen', hlt, _, hpb, ?_, ?_, ?_, ?_, ?_⟩
  · unfold get
    simp only [hfx]
    simp [hne]
  · unfold get_mut
    simp only [hfx]
    simp [hne]
  · unfold next_index
    simp only [hfx]
    simp [hne']
  · unfold prev_index
    simp only [hfx]
    simp [hne']
  · unfold remove
    simp only [hfx]
    simp [hne']

/-- Witness for C6 at a concrete input: `push_back 5; push_back 10`,
then `remove ⟨1,0⟩` (freeing slot 1 and bumping the generation to 1),
then `push_back 20`, which reuses slot 1 with generation 1; the stale
handle `⟨1,0⟩` fails every lookup. -/
theorem C6_generation_bump_invalidates_stale_handle_witness :
    exA3.generation = exA2.generation + 1 ∧
    (0 : Nat) < exA3.generation ∧
    ∃ l'' : IndexList Nat,
      push_back exA3 20 = .ok (⟨1, exA3.generation⟩, l'') ∧
      get l'' ⟨1, 0⟩ = .ok none ∧
      get_mut l'' ⟨1, 0⟩ = .ok none ∧
      next_index l'' ⟨1, 0⟩ = none ∧
      prev_index l'' ⟨1, 0⟩ = none ∧
      remove l'' ⟨1, 0⟩ = .ok (none, l'') :=
  @C6_generation_bump_invalidates_stale_handle Nat exA2
    (@Reachable.push_back_step Nat exA1 10 ⟨1, 0⟩ exA2
      (@Reachable.push_back_step Nat (listNew Nat) 5 ⟨0, 0⟩ exA1 Reachable.base
        (by decide))
      (by decide))
    ⟨1, 0⟩ 10 exA3 (by decide) 20

/-- C7: on every reachable list — that is, after every public mutating
operation completes — the `count` field equals the number of `Occupied`
slots of the backing array, and `head`/`tail` are `none` iff `count` is
zero. -/
theorem C7_count_and_emptiness_invariants {T : Type} {l : IndexList T}
    (hr : Reachable l) :
    l.count = occCount l ∧ (l.head = none ↔ l.count = 0) ∧
    (l.tail = none ↔ l.count = 0) := by
  obtain ⟨seq, fs, hw⟩ := reachable_wf hr
  have hc : l.count = seq.length := hw.count_eq
  refine ⟨by rw [hc, hw.occCount_eq], ?_, ?_⟩
  · rw [hw.head_eq, hc]
    constructor
    · intro h
      rw [List.head?_eq_none_iff] at h
      simp [h]
    · intro h
      rw [List.length_eq_zero] at h
      simp [h]
  · rw [hw.tail_eq, hc]
    constructor
    · intro h
      have hnil := getLast?_none_eq_nil h
      simp [hnil]
    · intro h
      rw [List.length_eq_zero] at h
      simp [h]

/-- Witness for C7 at a concrete input: the reachable state after
`push_back 5` on the empty list. -/
theorem C7_count_and_emptiness_invariants_witness :
    exA1.count = occCount exA1 ∧ (exA1.head = none ↔ exA1.count = 0) ∧
    (exA1.tail = none ↔ exA1.count = 0) :=
  C7_count_and_emptiness_invariants
    (@Reachable.push_back_step Nat (listNew Nat) 5 ⟨0, 0⟩ exA1 Reachable.base
      (by decide))

/-- C9: on every reachable list, `remove` is total for every handle
whatsoever: it never reaches its `panic!("Corrupted list")` branches; a
valid handle yields the stored element, and an invalid one (out of
range, `Free` slot, or generation mismatch) yields `none` with the list
returned entirely unchanged. -/
theorem C9_remove_total_on_reachable {T : Type} {l : IndexList T}
    (hr : Reachable l) (idx : Index) :
    (validHandle l idx → ∃ (oc : OccupiedEntry T) (l' : IndexList T),
      getEntry l.contents idx.index = some (.Occupied oc) ∧
      remove l idx = .ok (some oc.item, l')) ∧
    (¬ validHandle l idx → remove l idx = .ok (none, l)) := by
  obtain ⟨seq, fs, hw⟩ := reachable_wf hr
  rcases wfW_remove hw idx with ⟨hnv, hre⟩ | ⟨oc, A, B, l', hv, hoc, hseq, hre, hw'⟩
  · exact ⟨fun hvh => absurd hvh hnv, fun _ => hre⟩
  · exact ⟨fun _ => ⟨oc, l', hoc, hre⟩, fun hnv => absurd hv hnv⟩

/-- Witness for C9 at concrete inputs: on the reachable one-element
list, a generation-mismatched handle is rejected without mutation and
the valid handle removes the element. -/
theorem C9_remove_total_on_reachable_witness :
    remove exA1 ⟨0, 1⟩ = .ok (none, exA1) ∧
    ∃ (oc : OccupiedEntry Nat) (l' : IndexList Nat),
      getEntry exA1.contents 0 = some (.Occupied oc) ∧
      remove exA1 ⟨0, 0⟩ = .ok (some oc.item, l') := by
  constructor
  · exact (C9_remove_total_on_reachable
      (@Reachable.push_back_step Nat (listNew Nat) 5 ⟨0, 0⟩ exA1 Reachable.base
        (by decide))
      ⟨0, 1⟩).2 (fun hvh => absurd (show (0 : Nat) = 1 from hvh) (by decide))
  · exact (C9_remove_total_on_reachable
      (@Reachable.push_back_step Nat (listNew Nat) 5 ⟨0, 0⟩ exA1 Reachable.base
        (by decide))
      ⟨0, 0⟩).1 (show (0 : Nat) = 0 from rfl)

/-- C8: the free chain is a LIFO stack.  (1) A successful `remove`
pushes the freed slot: its `Free` link is set to the old free-chain head
and it becomes the new head.  (2)–(5) Every allocating operation
(`push_back`, `push_front`, `insert_before`, `insert_after`) with a
non-empty free chain whose head slot is `Free` pops the chain head,
allocating exactly at it (the array length is unchanged for the pushes).
(6) `push_back` appends a new slot only when the free chain is empty.
(7) Hence the first insertion after a single removal reuses exactly the
just-freed slot. -/
theorem C8_free_chain_is_lifo {T : Type} :
    (∀ (l : IndexList T) (idx : Index) (v : T) (l' : IndexList T),
      remove l idx = .ok (some v, l') →
      l'.next_free = some idx.index ∧
      getEntry l'.contents idx.index = some (.Free l.next_free)) ∧
    (∀ (l : IndexList T) (i : Nat) (nf : Option Nat) (x : T),
      l.next_free = some i → getEntry l.contents i = some (.Free nf) →
      ∃ l' : IndexList T, push_back l x = .ok (⟨i, l.generation⟩, l') ∧
        l'.next_free = nf ∧ l'.contents.length = l.contents.length ∧
        ∃ oc : OccupiedEntry T, getEntry l'.contents i = some (.Occupied oc) ∧
          oc.item = x ∧ oc.generation = l.generation) ∧
    (∀ (l : IndexList T) (i : Nat) (nf : Option Nat) (x : T),
      l.next_free = some i → getEntry l.contents i = some (.Free nf) →
      ∃ l' : IndexList T, push_front l x = .ok (⟨i, l.generation⟩, l') ∧
        l'.next_free = nf ∧ l'.contents.length = l.contents.length ∧
        ∃ oc : OccupiedEntry T, getEntry l'.contents i = some (.Occupied oc) ∧
          oc.item = x ∧ oc.generation = l.generation) ∧
    (∀ (l : IndexList T) (idx : Index) (i : Nat) (nf : Option Nat) (x : T),
      validHandle l idx → l.next_free = some i →
      getEntry l.contents i = some (.Free nf) →
      ∃ (r : Option Index) (l' : IndexList T),
        insert_before l idx x = .ok (r, l') ∧ l'.next_free = nf ∧
        ∃ oc : OccupiedEntry T, getEntry l'.contents i = some (.Occupied oc) ∧
          oc.item = x ∧ oc.generation = l.generation) ∧
    (∀ (l : IndexList T) (idx : Index) (i : Nat) (nf : Option Nat) (x : T),
      validHandle l idx → l.next_free = some i →
      getEntry l.contents i = some (.Free nf) →
      ∃ (r : Option Index) (l' : IndexList T),
        insert_after l idx x = .ok (r, l') ∧ l'.next_free = nf ∧
        ∃ oc : OccupiedEntry T, getEntry l'.contents i = some (.Occupied oc) ∧
          oc.item = x ∧ oc.generation = l.generation) ∧
    (∀ (l : IndexList T) (x : T), l.next_free = none →
      ∃ l' : IndexList T,
        push_back l x = .ok (⟨l.contents.length, l.generation⟩, l') ∧
        l'.contents.length = l.contents.length + 1) ∧
    (∀ (l : IndexList T) (idx : Index) (v : T) (l' : IndexList T) (x : T),
      remove l idx = .ok (some v, l') →
      ∃ l'' : IndexList T, push_back l' x = .ok (⟨idx.index, l'.generation⟩, l'')) := by
  refine ⟨?_, ?_, ?_, ?_, ?_, ?_, ?_⟩
  · intro l idx v l' hrem
    obtain ⟨oc, hoc, hocgen, hnf', hgen', hcnt', hfree', hlen'⟩ := remove_ok_some hrem
    exact ⟨hnf', hfree'⟩
  · intro l i nf x hnf hfree
    have hin : i < l.contents.length := getEntry_lt hfree
    have hset : getEntry (l.contents.set i (.Occupied ⟨x, l.generation, none, l.tail⟩)) i =
        some (.Occupied ⟨x, l.generation, none, l.tail⟩) := getEntry_set_self hin _
    obtain ⟨nx, hfx⟩ := getEntry_fixNextLink_occ hset l.tail i
    refine ⟨_, push_back_free_eq hnf hfree x, rfl, ?_,
      ⟨x, l.generation, nx, l.tail⟩, hfx, rfl, rfl⟩
    simp [length_fixNextLink]
  · intro l i nf x hnf hfree
    have hin : i < l.contents.length := getEntry_lt hfree
    have hset : getEntry (l.contents.set i (.Occupied ⟨x, l.generation, l.head, none⟩)) i =
        some (.Occupied ⟨x, l.generation, l.head, none⟩) := getEntry_set_self hin _
    obtain ⟨pv, hfx⟩ := getEntry_fixPrevLink_occ hset l.head i
    refine ⟨_, push_front_free_eq hnf hfree x, rfl, ?_,
      ⟨x, l.generation, l.head, pv⟩, hfx, rfl, rfl⟩
    simp [length_fixPrevLink]
  · intro l idx i nf x hv hnf hfree
    obtain ⟨oc0, hge0, hgen0⟩ := validHandle_elim hv
    have hii : idx.index ≠ i := by
      intro he
      rw [← he, hge0] at hfree
      exact Entry.noConfusion (Option.some.inj hfree)
    have hin : i < l.contents.length := getEntry_lt hfree
    have hanch : getEntry (l.contents.set i
        (.Occupied ⟨x, l.generation, some idx.index, oc0.prev⟩)) idx.index =
        some (.Occupied oc0) := by
      rw [getEntry_set_ne (Ne.symm hii)]
      exact hge0
    have hri : getEntry (l.contents.set i
        (.Occupied ⟨x, l.generation, some idx.index, oc0.prev⟩)) i =
        some (.Occupied ⟨x, l.generation, some idx.index, oc0.prev⟩) :=
      getEntry_set_self hin _
    obtain ⟨r, l', heq, hnf2, oc, hoc, hitem, hgen⟩ :=
      insert_before_finish_nf_entry oc0.prev nf hanch hri hii
    refine ⟨r, l', ?_, hnf2, oc, hoc, hitem, hgen⟩
    unfold insert_before
    simp only [hge0]
    rw [if_neg (show ¬ idx.generation ≠ oc0.generation from fun hh => hh hgen0.symm)]
    simp only [hnf, hfree]
    exact heq
  · intro l idx i nf x hv hnf hfree
    obtain ⟨oc0, hge0, hgen0⟩ := validHandle_elim hv
    have hii : idx.index ≠ i := by
      intro he
      rw [← he, hge0] at hfree
      exact Entry.noConfusion (Option.some.inj hfree)
    have hin : i < l.contents.length := getEntry_lt hfree
    have hanch : getEntry (l.contents.set i
        (.Occupied ⟨x, l.generation, oc0.next, some idx.index⟩)) idx.index =
        some (.Occupied oc0) := by
      rw [getEntry_set_ne (Ne.symm hii)]
      exact hge0
    have hri : getEntry (l.contents.set i
        (.Occupied ⟨x, l.generation, oc0.next, some idx.index⟩)) i =
        some (.Occupied ⟨x, l.generation, oc0.next, some idx.index⟩) :=
      getEntry_set_self hin _
    obtain ⟨r, l', heq, hnf2, oc, hoc, hitem, hgen⟩ :=
      insert_after_finish_nf_entry oc0.next nf hanch hri hii
    refine ⟨r, l', ?_, hnf2, oc, hoc, hitem, hgen⟩
    unfold insert_after
    simp only [hge0]
    rw [if_neg (show ¬ idx.generation ≠ oc0.generation from fun hh => hh hgen0.symm)]
    simp only [hnf, hfree]
    exact heq
  · intro l x hnf
    refine ⟨_, push_back_append_eq hnf x, ?_⟩
    simp [length_fixNextLink]
  · intro l idx v l' x hrem
    obtain ⟨oc, hoc, hocgen, hnf', hgen', hcnt', hfree', hlen'⟩ := remove_ok_some hrem
    exact ⟨_, push_back_free_eq hnf' hfree' x⟩

/-- Witness for C8 at concrete inputs, one per conjunct: the freed slot
of `remove ⟨0,0⟩` on the one-element list becomes the free-chain head
with the old (empty) head as its link; `push_back`/`push_front` on that
state pop slot 0; `insert_before`/`insert_after` on the two-slot state
`exA3` (free head = slot 1) allocate at slot 1; `push_back` on the empty
list appends at position 0; `push_back 20` after `remove ⟨1,0⟩` reuses
slot 1. -/
theorem C8_free_chain_is_lifo_witness :
    (exC1.next_free = some 0 ∧
      getEntry exC1.contents 0 = some (.Free exA1.next_free)) ∧
    (∃ l' : IndexList Nat, push_back exC1 9 = .ok (⟨0, exC1.generation⟩, l') ∧
      l'.next_free = none ∧ l'.contents.length = exC1.contents.length ∧
      ∃ oc : OccupiedEntry Nat, getEntry l'.contents 0 = some (.Occupied oc) ∧
        oc.item = 9 ∧ oc.generation = exC1.generation) ∧
    (∃ l' : IndexList Nat, push_front exC1 9 = .ok (⟨0, exC1.generation⟩, l') ∧
      l'.next_free = none ∧ l'.contents.length = exC1.contents.length ∧
      ∃ oc : OccupiedEntry Nat, getEntry l'.contents 0 = some (.Occupied oc) ∧
        oc.item = 9 ∧ oc.generation = exC1.generation) ∧
    (∃ (r : Option Index) (l' : IndexList Nat),
      insert_before exA3 ⟨0, 0⟩ 3 = .ok (r, l') ∧ l'.next_free = none ∧
      ∃ oc : OccupiedEntry Nat, getEntry l'.contents 1 = some (.Occupied oc) ∧
        oc.item = 3 ∧ oc.generation = exA3.generation) ∧
    (∃ (r : Option Index) (l' : IndexList Nat),
      insert_after exA3 ⟨0, 0⟩ 3 = .ok (r, l') ∧ l'.next_free = none ∧
      ∃ oc : OccupiedEntry Nat, getEntry l'.contents 1 = some (.Occupied oc) ∧
        oc.item = 3 ∧ oc.generation = exA3.generation) ∧
    (∃ l' : IndexList Nat, push_back (listNew Nat) 7 =
        .ok (⟨(listNew Nat).contents.length, (listNew Nat).generation⟩, l') ∧
      l'.contents.length = (listNew Nat).contents.length + 1) ∧
    (∃ l'' : IndexList Nat, push_back exA3 20 = .ok (⟨1, exA3.generation⟩, l'')) :=
  ⟨C8_free_chain_is_lifo.1 exA1 ⟨0, 0⟩ 5 exC1 (by decide),
   C8_free_chain_is_lifo.2.1 exC1 0 none 9 (by decide) (by decide),
   C8_free_chain_is_lifo.2.2.1 exC1 0 none 9 (by decide) (by decide),
   C8_free_chain_is_lifo.2.2.2.1 exA3 ⟨0, 0⟩ 1 none 3
     (show (0 : Nat) = 0 from rfl) (by decide) (by decide),
   C8_free_chain_is_lifo.2.2.2.2.1 exA3 ⟨0, 0⟩ 1 none 3
     (show (0 : Nat) = 0 from rfl) (by decide) (by decide),
   C8_free_chain_is_lifo.2.2.2.2.2.1 (listNew Nat) 7 (by decide),
   C8_free_chain_is_lifo.2.2.2.2.2.2 exA2 ⟨1, 0⟩ 10 exA3 20 (by decide)⟩

end IndexListVerify
